import Mathlib

/-!
Verification of the upload orchestration and filename resolution of the
PDF-merge frontend (`src/composables/usePdfMerge.ts`,
`src/app/pages/pdf/merge/download.vue`).

The TypeScript code is shallowly embedded:

* pure helpers (`stripQuotes`, `parseDisposition`, `getFilenameFromResponse`)
  become Lean functions over `String`;
* the retry loop of `uploadFileWithPresigned` becomes a recursive function
  over an abstract per-attempt transport outcome;
* the concurrent worker pool of `uploadFiles` becomes a small-step system:
  a `BatchState` record mirroring the mutable variables of the closure
  (`idx`, `cancelled`, `activeXhrs`, per-file status, `isUploading`) plus a
  scheduler event list (which worker runs next, when an upload settles,
  when `cancelUploads` fires), faithful to the single-threaded event loop
  where `const i = idx++` is atomic;
* browser built-ins (`XMLHttpRequest` handles, `decodeURIComponent`,
  `new URL`, `Headers.get`, `URLSearchParams.get`) are modelled by
  executable Lean functions that follow their specified semantics on the
  inputs in scope.
-/

set_option maxRecDepth 8000

/-! ## Retry model: `uploadFileWithPresigned` (src/composables/usePdfMerge.ts:68-114)

An attempt's rejection reason.  `doUpload` rejects with
`Upload failed with status <code>` when `xhr.onload` sees a non-2xx status
and with `Network error during upload` when `xhr.onerror` fires. -/

inductive AttemptErr where
  | status (code : Nat)
  | network
deriving DecidableEq, Repr

/-- The backoff before the retry after failed attempt `i`:
`2 ** i * 250` milliseconds (usePdfMerge.ts:108). -/
def backoff (i : Nat) : Nat := 2 ^ i * 250

/-- Spec classification of attempt failures (spec section 4.1): a status
of at least 500, or a network failure, is retryable; a 4xx is not.
The source code itself performs no such classification. -/
def retryableErr : AttemptErr → Bool
  | .status code => 500 ≤ code
  | .network => true

/-- Observable trace of the retry loop: how many attempts ran, the
backoff delays awaited between them, and the settled promise
(`none` = resolved, `some e` = rejected with the final error). -/
structure RetryTrace where
  attemptsMade : Nat
  delays : List Nat
  result : Option AttemptErr
deriving DecidableEq, Repr

/-- The loop `for (let i = 0; i <= attempts; i++)` of
`uploadFileWithPresigned` (usePdfMerge.ts:101-111).  `transport i` is the
outcome of `doUpload()` on attempt `i` (`none` = 2xx resolve, `some e` =
rejection).  `fuel` is the number of loop iterations still to run
(`attempts + 1 - i`); a delay of `backoff i` is awaited exactly when the
failed iteration is not the last one (`i < attempts`), and the error kept
in `lastErr` when the loop ends is the error of the last attempt. -/
def retryGo (transport : Nat → Option AttemptErr) : Nat → Nat → RetryTrace
  | _, 0 => ⟨0, [], none⟩
  | i, fuel + 1 =>
    match transport i with
    | none => ⟨1, [], none⟩
    | some e =>
      if fuel = 0 then ⟨1, [], some e⟩
      else
        let t := retryGo transport (i + 1) fuel
        ⟨t.attemptsMade + 1, backoff i :: t.delays, t.result⟩

/-- `uploadFileWithPresigned(post, file, onProgress, attempts, id)`
abstracted to the retry structure: attempts `0..attempts` are run until
one resolves; the trace records count, delays and final result. -/
def uploadFileWithPresigned (transport : Nat → Option AttemptErr) (attempts : Nat) : RetryTrace :=
  retryGo transport 0 (attempts + 1)

/-! ## Per-attempt handle registration: `doUpload` and `activeXhrs`
(usePdfMerge.ts:69-96)

`activeXhrs` is a `Map<number, XMLHttpRequest>`; we track only its key
set, as a duplicate-free list of file indices. -/

/-- `activeXhrs.set(id, xhr)`: key membership after a map set. -/
def mapSet (m : List Nat) (id : Nat) : List Nat :=
  if id ∈ m then m else m ++ [id]

/-- `activeXhrs.delete(id)`: key membership after a map delete. -/
def mapDelete (m : List Nat) (id : Nat) : List Nat :=
  m.filter (fun k => k != id)

/-- How a single `XMLHttpRequest` settles: `onload` fires with a final
HTTP status, or `onerror` fires (network error). -/
inductive XhrOutcome where
  | load (status : Nat)
  | networkError
deriving DecidableEq, Repr

/-- Map states around one `doUpload()` attempt: the key set right after
`activeXhrs.set(id, xhr)` (while the request is in flight), the key set
after the settling handler ran, and the promise result. -/
structure AttemptEffect where
  registered : List Nat
  final : List Nat
  result : Option AttemptErr
deriving DecidableEq, Repr

/-- One `doUpload()` attempt with index `id` against map `m`
(usePdfMerge.ts:69-96): the handle is registered before `xhr.send`;
`onload` deletes it whether the status is 2xx (resolve) or not (reject);
`onerror` rejects without deleting it. -/
def doUpload (m : List Nat) (id : Nat) (out : XhrOutcome) : AttemptEffect :=
  let reg := mapSet m id
  match out with
  | .load status =>
    if 200 ≤ status ∧ status < 300 then ⟨reg, mapDelete reg id, none⟩
    else ⟨reg, mapDelete reg id, some (.status status)⟩
  | .networkError => ⟨reg, reg, some .network⟩

/-! ## Progress aggregation (usePdfMerge.ts:144-151) -/

/-- `Math.round` on a non-negative rational: round half away from zero,
i.e. `⌊q + 1/2⌋` for `q ≥ 0`. -/
def jsRound (q : ℚ) : ℤ := ⌊q + 1 / 2⌋

/-- The per-batch progress accumulators `uploadedBytes`, `totalBytes`
and the reactive `overallProgress`. -/
structure ProgressState where
  uploadedBytes : List Nat
  totalBytes : List Nat
  overallProgress : ℤ
deriving DecidableEq, Repr

/-- The `onProgress` closure passed to `uploadFileWithPresigned`
(usePdfMerge.ts:144-151): store `(loaded, total)` in slot `i`, then
recompute `overallProgress = Math.round((sumUploaded / sumTotal) * 100)`
with `sumTotal = totalBytes.reduce((a,b) => a+b, 0) || 1`. -/
def onProgressTick (st : ProgressState) (i loaded total : Nat) : ProgressState :=
  let uploaded := st.uploadedBytes.set i loaded
  let totals := st.totalBytes.set i total
  let sumUploaded : Nat := uploaded.foldl (fun a b => a + b) 0
  let sumTotalRaw : Nat := totals.foldl (fun a b => a + b) 0
  let sumTotal : Nat := if sumTotalRaw = 0 then 1 else sumTotalRaw
  ⟨uploaded, totals, jsRound ((sumUploaded : ℚ) / (sumTotal : ℚ) * 100)⟩

/-! ## Batch model: `uploadFiles` and `cancelUploads`
(usePdfMerge.ts:118-180)

The JavaScript event loop interleaves the `min(concurrency, len)`
`runNext` chains.  We model the state of one `uploadFiles` call together
with the composable's refs, and a scheduler event list: `claim w` is
worker `w` executing `const i = idx++` and the two early-return guards;
`finish w r` is worker `w`'s `uploadFileWithPresigned` promise settling;
`cancel` is a `cancelUploads()` call.  `const i = idx++` is a single
synchronous step on the event loop, hence atomic. -/

/-- Per-file lifecycle from spec section 4.1:
`pending → in-flight → {succeeded | failed | aborted}` (the `retrying`
sub-state is internal to `uploadFileWithPresigned`). -/
inductive FileSt where
  | pending
  | inflight
  | succeeded
  | failed
  | aborted
deriving DecidableEq, Repr

/-- State of one `runNext` chain: about to claim an index, awaiting an
upload for index `i`, returned normally, or propagating an exception. -/
inductive WorkerSt where
  | ready
  | uploading (i : Nat)
  | done
  | threw (msg : String)
deriving DecidableEq, Repr

/-- How one worker's `uploadFileWithPresigned` call settles: resolution,
or rejection with message `msg`; `leak` records whether the final failed
attempt was a network error (in which case `doUpload` left the handle
registered, see `doUpload`). -/
inductive UploadFinal where
  | ok
  | fail (msg : String) (leak : Bool)
deriving DecidableEq, Repr

/-- A scheduler event. -/
inductive Ev where
  | claim (w : Nat)
  | finish (w : Nat) (r : UploadFinal)
  | cancel
deriving DecidableEq, Repr

/-- The mutable state of one `uploadFiles` call plus the composable refs
it touches: `idx` (shared cursor), `cancelled`, the key set of
`activeXhrs`, the ghost per-file statuses, the worker states, the claim
history (which worker claimed which index, in order), the rejection
messages in the order they occurred, and `isUploading`.  `abortedHandles`
records every handle on which `cancelUploads` called `xhr.abort()`. -/
structure BatchState where
  names : List String
  idx : Nat
  cancelled : Bool
  files : List FileSt
  handles : List Nat
  abortedHandles : List Nat
  workers : List WorkerSt
  claims : List (Nat × Nat)
  errors : List String
  isUploading : Bool
deriving DecidableEq, Repr

/-- `xhr.abort()` on every registered handle: every in-flight transfer
whose handle is registered stops, so its file becomes `aborted`
(statuses other than `inflight` are unaffected — aborting an already
finished request is a no-op). -/
def markAborted (handles : List Nat) : Nat → List FileSt → List FileSt
  | _, [] => []
  | i, st :: rest =>
    (if i ∈ handles ∧ st = .inflight then .aborted else st) :: markAborted handles (i + 1) rest

/-- The exception message thrown at usePdfMerge.ts:155 when the upload of
file `i` rejects with `msg`. -/
def failMsg (names : List String) (i : Nat) (msg : String) : String :=
  "Failed to upload " ++ names.getD i "" ++ ": " ++ msg

/-- One scheduler event applied to a batch state.

* `claim w` (usePdfMerge.ts:134-152): only a `ready` worker can run
  `runNext`; it executes `const i = idx++`, returns (`done`) if
  `i >= files.length` or `cancelled.value`, and otherwise starts
  `uploadFileWithPresigned(..., i)`, whose first attempt registers the
  handle `i` in `activeXhrs`.
* `finish w r` (usePdfMerge.ts:143-157): the awaited upload settles.
  On resolution the file succeeded, its handle was deleted by `onload`,
  and the worker tail-calls `runNext()` (back to `ready`).  On rejection
  the worker throws `Failed to upload <name>: <msg>`; `onload`-style
  failures deleted the handle, a final network error left it registered.
* `cancel` (usePdfMerge.ts:170-180): set `cancelled.value = true`, call
  `xhr.abort()` on every registered handle, then `activeXhrs.clear()`. -/
def applyEv (s : BatchState) (e : Ev) : BatchState :=
  match e with
  | .claim w =>
    match s.workers.get? w with
    | some .ready =>
      let i := s.idx
      if s.names.length ≤ i then
        { s with idx := i + 1, workers := s.workers.set w .done }
      else if s.cancelled then
        { s with idx := i + 1, workers := s.workers.set w .done }
      else
        { s with idx := i + 1,
                 workers := s.workers.set w (.uploading i),
                 claims := s.claims ++ [(w, i)],
                 files := s.files.set i .inflight,
                 handles := mapSet s.handles i }
    | _ => s
  | .finish w r =>
    match s.workers.get? w with
    | some (.uploading i) =>
      match r with
      | .ok =>
        { s with files := s.files.set i .succeeded,
                 handles := mapDelete s.handles i,
                 workers := s.workers.set w .ready }
      | .fail msg leak =>
        { s with files := s.files.set i .failed,
                 handles := if leak then s.handles else mapDelete s.handles i,
                 workers := s.workers.set w (.threw (failMsg s.names i msg)),
                 errors := s.errors ++ [failMsg s.names i msg] }
    | _ => s
  | .cancel =>
    { s with cancelled := true,
             files := markAborted s.handles 0 s.files,
             abortedHandles := s.abortedHandles ++ s.handles,
             handles := [] }

/-- Run a scheduler event list. -/
def runEvents (s : BatchState) : List Ev → BatchState
  | [] => s
  | e :: es => runEvents (applyEv s e) es

/-- The state right after the prologue of `uploadFiles`
(usePdfMerge.ts:120-132 and 161-163): flags reset, `isUploading := true`,
cursor at 0, per-file slots initialised, and `min(concurrency, len)`
`runNext` chains pushed. -/
def initBatch (names : List String) (concurrency : Nat) : BatchState :=
  { names := names
    idx := 0
    cancelled := false
    files := List.replicate names.length .pending
    handles := []
    abortedHandles := []
    workers := List.replicate (min concurrency names.length) .ready
    claims := []
    errors := []
    isUploading := true }

/-- `await Promise.all(results)` rejects with the first rejection and
resolves when every chain resolved. -/
def settleResult (s : BatchState) : Except String Unit :=
  match s.errors with
  | m :: _ => .error m
  | [] => .ok ()

/-- The `finally` block of `uploadFiles` (usePdfMerge.ts:165-167). -/
def finishBatch (s : BatchState) : BatchState :=
  { s with isUploading := false }

/-- `uploadFiles(files, uploads, opts)` (usePdfMerge.ts:118-168): the
length precondition is checked before anything else (in particular before
`isUploading.value = true` and before any worker starts); then the batch
runs under some scheduling `evs` and finally `isUploading` is reset. -/
def uploadFiles (names : List String) (uploadsLen concurrency : Nat) (evs : List Ev) :
    Except String (BatchState × Except String Unit) :=
  if names.length ≠ uploadsLen then .error "files and uploads length mismatch"
  else
    let s := runEvents (initBatch names concurrency) evs
    .ok (finishBatch s, settleResult s)

/-- The upload attempts started by a call to `uploadFiles`: the claim
history of the final state, or nothing when the precondition failed. -/
def attemptsStarted (r : Except String (BatchState × Except String Unit)) : List (Nat × Nat) :=
  match r with
  | .error _ => []
  | .ok (s, _) => s.claims

/-- Reachability invariant of the batch system: the claim history is a
prefix `0, 1, ..., k-1` of the index sequence (and is exactly
`min(idx, len)` while not cancelled); per-file statuses, the handle map
and the worker states are mutually consistent. -/
structure BatchInv (s : BatchState) : Prop where
  files_len : s.files.length = s.names.length
  claims_range : ∃ k, k ≤ s.idx ∧ k ≤ s.names.length ∧
    s.claims.map Prod.snd = List.range k
  claims_full : s.cancelled = false →
    s.claims.map Prod.snd = List.range (min s.idx s.names.length)
  claimed_not_pending : ∀ i ∈ s.claims.map Prod.snd, ¬ s.files.get? i = some .pending
  touched_claimed : ∀ i st, s.files.get? i = some st →
    st = .pending ∨ i ∈ s.claims.map Prod.snd
  handles_status : ∀ i ∈ s.handles,
    s.files.get? i = some .inflight ∨ s.files.get? i = some .failed
  inflight_handle : ∀ i, s.files.get? i = some .inflight → i ∈ s.handles
  uploading_claimed : ∀ w i, s.workers.get? w = some (.uploading i) → (w, i) ∈ s.claims
  uploading_status : ∀ w i, s.workers.get? w = some (.uploading i) →
    s.files.get? i = some .inflight ∨ s.files.get? i = some .aborted
  inflight_worker : ∀ i, s.files.get? i = some .inflight →
    ∃ w, s.workers.get? w = some (.uploading i)
  failed_thrower : ∀ i, s.files.get? i = some .failed →
    ∃ w msg, s.workers.get? w = some (.threw msg)
  aborted_cancelled : ∀ i, s.files.get? i = some .aborted → s.cancelled = true
  done_idx : ∀ w, s.workers.get? w = some .done →
    s.cancelled = true ∨ s.names.length < s.idx

/-! ## Filename resolution (src/app/pages/pdf/merge/download.vue:20-62)

`stripQuotes` is `s.replace(/^\s*"?(.+?)"?\s*$/, '$1')`.  We embed the
regex engine's behaviour on this anchored pattern: the greedy `\s*`
prefers the longest whitespace prefix (backtracking to shorter ones),
the optional quote is preferred, the lazy group `(.+?)` takes the
shortest non-empty run of non-line-terminator characters such that the
remainder matches `"?\s*$`, and on a match the whole string is replaced
by the capture; an unmatched string is returned unchanged. -/

/-- The double-quote character. -/
def quoteChar : Char := Char.ofNat 34

/-- The apostrophe character (used by the `filename*=UTF-8..` form). -/
def apostrophe : Char := Char.ofNat 39

/-- JavaScript regex `\s` (ECMA-262 WhiteSpace and LineTerminator). -/
def isJsSpace (c : Char) : Bool :=
  let n := c.toNat
  n == 32 || n == 9 || n == 10 || n == 11 || n == 12 || n == 13 ||
  n == 0xA0 || n == 0x1680 || (0x2000 ≤ n && n ≤ 0x200A) ||
  n == 0x2028 || n == 0x2029 || n == 0x202F || n == 0x205F ||
  n == 0x3000 || n == 0xFEFF

/-- JavaScript regex `.` does not match these (LineTerminator). -/
def isLineTerm (c : Char) : Bool :=
  c.toNat == 10 || c.toNat == 13 || c.toNat == 0x2028 || c.toNat == 0x2029

/-- Does `rest` match `"?\s*$`? -/
def tailMatches (rest : List Char) : Bool :=
  rest.all isJsSpace ||
    (match rest with
     | c :: r => c == quoteChar && r.all isJsSpace
     | [] => false)

/-- The lazy group `(.+?)`: shortest non-empty prefix of
non-line-terminator characters whose remainder matches `"?\s*$`. -/
def findCore (taken : List Char) : List Char → Option (List Char)
  | [] => none
  | c :: rs =>
    if isLineTerm c then none
    else if tailMatches rs then some (taken ++ [c])
    else findCore (taken ++ [c]) rs

/-- Match `"?(.+?)"?\s*$` against `cs`, preferring to consume an opening
quote and backtracking to treating it as part of the group. -/
def tryFrom (cs : List Char) : Option (List Char) :=
  match cs with
  | c :: r =>
    if c == quoteChar then
      match findCore [] r with
      | some core => some core
      | none => findCore [] cs
    else findCore [] cs
  | [] => none

/-- Greedy `^\s*`: try the whitespace prefix of length `a` first and
backtrack to shorter prefixes. -/
def tryStrip (cs : List Char) : Nat → Option (List Char)
  | 0 => tryFrom cs
  | a + 1 =>
    match tryFrom (cs.drop (a + 1)) with
    | some core => some core
    | none => tryStrip cs a

/-- Length of the maximal `\s` run at the front. -/
def wsRunLen : List Char → Nat
  | [] => 0
  | c :: r => if isJsSpace c then wsRunLen r + 1 else 0

/-- `stripQuotes` (download.vue:20). -/
def stripQuotes (s : String) : String :=
  match tryStrip s.data (wsRunLen s.data) with
  | some core => String.mk core
  | none => s

/-- Case-insensitive character comparison (regex `i` flag). -/
def lowerEq (c d : Char) : Bool := c.toLower == d.toLower

/-- Strip a case-insensitive literal pattern from the front. -/
def stripCI : List Char → List Char → Option (List Char)
  | [], cs => some cs
  | _ :: _, [] => none
  | p :: ps, c :: cs => if lowerEq p c then stripCI ps cs else none

/-- The literal `filename*=` of `/filename\*=(?:UTF-8..)?([^;]+)/i`. -/
def filenameStarPat : List Char := "filename*=".data

/-- The literal `filename=` of `/filename=([^;]+)/i`. -/
def filenamePat : List Char := "filename=".data

/-- The optional literal `UTF-8` followed by two apostrophes. -/
def utf8Pat : List Char := "UTF-8".data ++ [apostrophe, apostrophe]

/-- `[^;]+` (maximal, possibly empty here; emptiness checked by caller). -/
def takeParamVal (cs : List Char) : List Char :=
  cs.takeWhile (fun c => c != ';')

/-- Try `/filename\*=(?:UTF-8..)?([^;]+)/i` at the current position: the
optional encoding marker is consumed greedily, but if nothing capturable
follows it the engine backtracks and the marker itself is captured. -/
def matchStarAt (cs : List Char) : Option (List Char) :=
  match stripCI filenameStarPat cs with
  | none => none
  | some rest =>
    match stripCI utf8Pat rest with
    | some rest2 =>
      let cap := takeParamVal rest2
      if cap.isEmpty then
        let cap2 := takeParamVal rest
        if cap2.isEmpty then none else some cap2
      else some cap
    | none =>
      let cap := takeParamVal rest
      if cap.isEmpty then none else some cap

/-- Try `/filename=([^;]+)/i` at the current position. -/
def matchPlainAt (cs : List Char) : Option (List Char) :=
  match stripCI filenamePat cs with
  | none => none
  | some rest =>
    let cap := takeParamVal rest
    if cap.isEmpty then none else some cap

/-- Leftmost match of the starred pattern (`.exec` scans positions). -/
def scanStar : List Char → Option (List Char)
  | [] => none
  | c :: rest =>
    match matchStarAt (c :: rest) with
    | some cap => some cap
    | none => scanStar rest

/-- Leftmost match of the plain pattern. -/
def scanPlain : List Char → Option (List Char)
  | [] => none
  | c :: rest =>
    match matchPlainAt (c :: rest) with
    | some cap => some cap
    | none => scanPlain rest

/-- `parseDisposition` (download.vue:22-29): `null`/`undefined`/empty is
falsy; the starred parameter wins over the plain one; captures are
quote-stripped. -/
def parseDisposition (d : Option String) : Option String :=
  match d with
  | none => none
  | some s =>
    if s.data.isEmpty then none
    else
      match scanStar s.data with
      | some cap => some (stripQuotes (String.mk cap))
      | none =>
        match scanPlain s.data with
        | some cap => some (stripQuotes (String.mk cap))
        | none => none

/-! ## `decodeURIComponent` and URL parsing (browser built-ins used by
`getFilenameFromResponse`, download.vue:31-62) -/

/-- Hex digit value. -/
def hexVal (c : Char) : Option Nat :=
  if c.isDigit then some (c.toNat - 48)
  else if c ≥ Char.ofNat 97 ∧ c ≤ Char.ofNat 102 then some (c.toNat - 87)
  else if c ≥ Char.ofNat 65 ∧ c ≤ Char.ofNat 70 then some (c.toNat - 55)
  else none

/-- Read one percent escape `%hh`. -/
def pctByte : List Char → Option (Nat × List Char)
  | c :: h1 :: h2 :: rest =>
    if c == '%' then
      match hexVal h1, hexVal h2 with
      | some a, some b => some (16 * a + b, rest)
      | _, _ => none
    else none
  | _ => none

/-- A UTF-8 continuation byte. -/
def isContByte (x : Nat) : Bool := decide (0x80 ≤ x ∧ x < 0xC0)

/-- Read `n` continuation bytes, each percent-escaped. -/
def contBytes : Nat → List Char → Option (List Nat × List Char)
  | 0, cs => some ([], cs)
  | n + 1, cs =>
    match pctByte cs with
    | some (b, rest) =>
      if isContByte b then
        match contBytes n rest with
        | some (bs, rest2) => some (b :: bs, rest2)
        | none => none
      else none
    | none => none

/-- Assemble a code point from a lead byte (minus its marker) and
continuation bytes. -/
def buildCP (lead : Nat) (conts : List Nat) : Nat :=
  conts.foldl (fun acc x => acc * 64 + (x - 0x80)) lead

/-- Decode a multi-percent-escape UTF-8 sequence whose lead byte is `b`,
returning the code point and the remaining input, or failing
(`URIError`) on malformed sequences, overlong encodings, surrogates and
out-of-range values, per ECMA-262 `Decode`. -/
def decodeSeq (b : Nat) (rest : List Char) : Option (Nat × List Char) :=
  if b < 0x80 then some (b, rest)
  else if b < 0xC0 then none
  else if b < 0xE0 then
    match contBytes 1 rest with
    | some (conts, rest2) =>
      let cp := buildCP (b - 0xC0) conts
      if 0x80 ≤ cp then some (cp, rest2) else none
    | none => none
  else if b < 0xF0 then
    match contBytes 2 rest with
    | some (conts, rest2) =>
      let cp := buildCP (b - 0xE0) conts
      if 0x800 ≤ cp ∧ ¬(0xD800 ≤ cp ∧ cp ≤ 0xDFFF) then some (cp, rest2) else none
    | none => none
  else if b < 0xF8 then
    match contBytes 3 rest with
    | some (conts, rest2) =>
      let cp := buildCP (b - 0xF0) conts
      if 0x10000 ≤ cp ∧ cp ≤ 0x10FFFF then some (cp, rest2) else none
    | none => none
  else none

/-- The character-by-character loop of ECMA-262 `Decode`: characters
other than `%` pass through; a `%` starts a strictly validated
percent-escaped UTF-8 sequence.  `fuel` bounds the recursion by the
input length (each step consumes at least one character). -/
def decodeGo : Nat → List Char → Option (List Char)
  | _, [] => some []
  | 0, _ :: _ => none
  | fuel + 1, c :: cs =>
    if c == '%' then
      match pctByte (c :: cs) with
      | none => none
      | some (b, rest) =>
        match decodeSeq b rest with
        | some (cp, rest2) =>
          match decodeGo fuel rest2 with
          | some out => some (Char.ofNat cp :: out)
          | none => none
        | none => none
    else
      match decodeGo fuel cs with
      | some out => some (c :: out)
      | none => none

/-- `decodeURIComponent`: `none` models a thrown `URIError`. -/
def decodeURIComponent (s : String) : Option String :=
  (decodeGo s.data.length s.data).map String.mk

/-- UTF-8 encoding of a code point (for query-string decoding). -/
def utf8Enc (n : Nat) : List Nat :=
  if n < 0x80 then [n]
  else if n < 0x800 then [0xC0 + n / 64, 0x80 + n % 64]
  else if n < 0x10000 then [0xE0 + n / 4096, 0x80 + (n / 64) % 64, 0x80 + n % 64]
  else [0xF0 + n / 262144, 0x80 + (n / 4096) % 64, 0x80 + (n / 64) % 64, 0x80 + n % 64]

/-- `application/x-www-form-urlencoded` byte sequence of a query
component: `+` is a space, valid `%hh` escapes decode to bytes, other
characters contribute their UTF-8 bytes; never fails. -/
def formBytesGo : Nat → List Char → List Nat
  | _, [] => []
  | 0, _ :: _ => []
  | fuel + 1, c :: cs =>
    if c == '+' then 32 :: formBytesGo fuel cs
    else if c == '%' then
      match pctByte (c :: cs) with
      | some (b, rest) => b :: formBytesGo fuel rest
      | none => utf8Enc c.toNat ++ formBytesGo fuel cs
    else utf8Enc c.toNat ++ formBytesGo fuel cs

/-- U+FFFD. -/
def replacementChar : Char := Char.ofNat 0xFFFD

/-- Lenient UTF-8 decoding (invalid bytes become U+FFFD), as used for
query strings; never fails. -/
def lenientDecode : Nat → List Nat → List Char
  | _, [] => []
  | 0, _ :: _ => []
  | fuel + 1, b :: bs =>
    if b < 0x80 then Char.ofNat b :: lenientDecode fuel bs
    else if b < 0xC0 then replacementChar :: lenientDecode fuel bs
    else
      let n := if b < 0xE0 then 2 else if b < 0xF0 then 3 else if b < 0xF8 then 4 else 0
      if n = 0 then replacementChar :: lenientDecode fuel bs
      else
        let conts := bs.take (n - 1)
        if conts.length = n - 1 ∧ conts.all isContByte then
          let mask := if n = 2 then 0xC0 else if n = 3 then 0xE0 else 0xF0
          let cp := buildCP (b - mask) conts
          let lo := if n = 2 then 0x80 else if n = 3 then 0x800 else 0x10000
          if lo ≤ cp ∧ cp ≤ 0x10FFFF ∧ ¬(0xD800 ≤ cp ∧ cp ≤ 0xDFFF) then
            Char.ofNat cp :: lenientDecode fuel (bs.drop (n - 1))
          else replacementChar :: lenientDecode fuel bs
        else replacementChar :: lenientDecode fuel bs

/-- Decode one `application/x-www-form-urlencoded` component. -/
def formDecode (s : String) : String :=
  let bs := formBytesGo s.data.length s.data
  String.mk (lenientDecode bs.length bs)

/-- The observable parts of a parsed `URL` object that
`getFilenameFromResponse` uses: `pathname` and the decoded search
parameters in order. -/
structure JsURL where
  pathname : String
  params : List (String × String)
deriving DecidableEq, Repr

/-- A scheme continuation character. -/
def isSchemeChar (c : Char) : Bool :=
  c.isAlpha || c.isDigit || c == '+' || c == '-' || c == '.'

/-- Split off the scheme: consume scheme characters up to `:`. -/
def splitScheme : List Char → Option (List Char)
  | [] => none
  | c :: rest => if c == ':' then some rest else if isSchemeChar c then splitScheme rest else none

/-- JavaScript `String.prototype.split` with a one-character separator. -/
def splitOnChar (sep : Char) : List Char → List (List Char)
  | [] => [[]]
  | c :: rest =>
    let r := splitOnChar sep rest
    if c == sep then [] :: r
    else
      match r with
      | seg :: segs => (c :: seg) :: segs
      | [] => [[c]]

/-- Parse a query string into decoded name/value pairs: split on `&`,
skip empty segments, split each segment at the first `=`, form-decode
names and values. -/
def parseQuery (q : List Char) : List (String × String) :=
  (splitOnChar '&' q).filterMap (fun seg =>
    if seg.isEmpty then none
    else
      let name := seg.takeWhile (fun c => c != '=')
      let value :=
        match seg.drop name.length with
        | _ :: vs => vs
        | [] => []
      some (formDecode (String.mk name), formDecode (String.mk value)))

/-- `new URL(s)` restricted to what the page reads: `none` models a
thrown `TypeError` (no scheme, or an authority URL with an empty host).
For an authority form `scheme://host/path?query#frag` the pathname is
the `/`-led path (`/` when absent); otherwise the scheme-relative rest
is an opaque path. -/
def parseURL (s : String) : Option JsURL :=
  match s.data with
  | [] => none
  | c :: rest =>
    if ¬ c.isAlpha then none
    else
      match splitScheme rest with
      | none => none
      | some afterColon =>
        let beforeFrag := afterColon.takeWhile (fun ch => ch != '#')
        match beforeFrag with
        | '/' :: '/' :: hostRest =>
          let host := hostRest.takeWhile (fun ch => ch != '/' && ch != '?')
          let afterHost := hostRest.drop host.length
          if host.isEmpty then none
          else
            let path := afterHost.takeWhile (fun ch => ch != '?')
            let q :=
              match afterHost.drop path.length with
              | _ :: qs => qs
              | [] => []
            some ⟨if path.isEmpty then "/" else String.mk path, parseQuery q⟩
        | _ =>
          let path := beforeFrag.takeWhile (fun ch => ch != '?')
          let q :=
            match beforeFrag.drop path.length with
            | _ :: qs => qs
            | [] => []
          some ⟨String.mk path, parseQuery q⟩

/-- `u.searchParams.get(key)`: the first pair with that (decoded) name. -/
def searchParamsGet (u : JsURL) (key : String) : Option String :=
  (u.params.find? (fun p => p.1 == key)).map (fun p => p.2)

/-- JavaScript `a || b` on nullable strings: the empty string is falsy. -/
def jsOrStr (a b : Option String) : Option String :=
  match a with
  | some s => if s.data.isEmpty then b else some s
  | none => b

/-- `resp.headers.get(name)`: case-insensitive header lookup; the
response is modelled by its header list. -/
def headersGet (headers : List (String × String)) (name : String) : Option String :=
  (headers.find? (fun p => p.1.data.map Char.toLower == name.data.map Char.toLower)).map
    (fun p => p.2)

/-- `getFilenameFromResponse(resp, urlStr)` (download.vue:31-62): tier 1
parses the `Content-Disposition` header and percent-decodes the result,
keeping the raw value when decoding throws; tier 2 does the same with a
disposition hint from the URL query (`response-content-disposition`,
then `content-disposition`, empty values being falsy); tier 3 takes the
last non-empty `/`-separated path segment; tier 4 is `merged.pdf`.  A
URL parse failure jumps straight to tier 4. -/
def getFilenameFromResponse (headers : List (String × String)) (urlStr : Option String) : String :=
  let defaultName := "merged.pdf"
  let cd := headersGet headers "Content-Disposition"
  match parseDisposition cd with
  | some fromCd => (decodeURIComponent fromCd).getD fromCd
  | none =>
    match urlStr with
    | some u =>
      if u.data.isEmpty then defaultName
      else
        match parseURL u with
        | none => defaultName
        | some uo =>
          let qp := jsOrStr (searchParamsGet uo "response-content-disposition")
            (jsOrStr (searchParamsGet uo "content-disposition") none)
          match parseDisposition qp with
          | some fromQp => (decodeURIComponent fromQp).getD fromQp
          | none =>
            match (((splitOnChar '/' uo.pathname.data).map String.mk).filter
              (fun x => !x.data.isEmpty)).getLast? with
            | some seg => seg
            | none => defaultName
    | none => defaultName

/-! ## Example inputs used in concrete statements -/

/-- A double-quote as a one-character string. -/
def dq : String := String.mk [quoteChar]

/-- The header value `attachment; filename="merged.pdf"`. -/
def mergedHeaderExample : String := "attachment; filename=" ++ dq ++ "merged.pdf" ++ dq

/-- The header value `filename*=UTF-8` + two apostrophes + `relat%C3%B3rio.pdf`. -/
def starHeaderExample : String :=
  "filename*=UTF-8" ++ String.mk [apostrophe, apostrophe] ++ "relat%C3%B3rio.pdf"

/-- The header value `attachment; filename="a%zz.pdf"` (malformed escape). -/
def badDecodeHeaderExample : String := "attachment; filename=" ++ dq ++ "a%zz.pdf" ++ dq

/-! ## Theorems -/

/-- When every attempt fails, the retry loop runs all of its `fuel`
iterations, sleeping `backoff i` between consecutive attempts, and ends
with the error of the last attempt. -/
theorem retryGo_allFail (transport : Nat → Option AttemptErr) (err : Nat → AttemptErr)
    (h : ∀ j, transport j = some (err j)) :
    ∀ fuel i, retryGo transport i (fuel + 1) =
      ⟨fuel + 1, (List.range fuel).map (fun k => backoff (i + k)), some (err (i + fuel))⟩ := by
  intro fuel
  induction fuel with
  | zero =>
    intro i
    simp [retryGo, h i]
  | succ f ih =>
    intro i
    have hfun : (fun k => backoff (i + Nat.succ k)) = (fun k => backoff (i + 1 + k)) := by
      funext k
      congr 1
      omega
    have hidx : i + (f + 1) = i + 1 + f := by omega
    have step : retryGo transport i (f + 1 + 1) =
        ⟨(retryGo transport (i + 1) (f + 1)).attemptsMade + 1,
         backoff i :: (retryGo transport (i + 1) (f + 1)).delays,
         (retryGo transport (i + 1) (f + 1)).result⟩ := by
      simp only [retryGo, h i]
      rw [if_neg (Nat.succ_ne_zero f)]
    rw [step, ih (i + 1)]
    rw [List.range_succ_eq_map, List.map_cons, List.map_map]
    simp only [Function.comp_def, Nat.add_zero, hfun, hidx]

/-- C1: if every attempt of `uploadFileWithPresigned` fails with a
retryable failure (for example the transport always answers 503), then
exactly `attempts + 1` attempts run in total, the wait before the
`(i+1)`-th attempt is `250 * 2 ^ i` milliseconds (`i` starting at 0:
250, 500, 1000, ...), and the failure surfaced is the failure of the
last attempt. -/
theorem uploadFileWithPresigned_allRetryableFail
    (transport : Nat → Option AttemptErr) (attempts : Nat) (err : Nat → AttemptErr)
    (hfail : ∀ j, transport j = some (err j))
    (hretryable : ∀ j, retryableErr (err j) = true) :
    uploadFileWithPresigned transport attempts =
      ⟨attempts + 1, (List.range attempts).map (fun i => 250 * 2 ^ i), some (err attempts)⟩ := by
  have h := retryGo_allFail transport err hfail attempts 0
  unfold uploadFileWithPresigned
  rw [h]
  have hfun : (fun k => backoff (0 + k)) = (fun i : Nat => 250 * 2 ^ i) := by
    funext k
    simp [backoff, Nat.mul_comm]
  rw [hfun]
  simp

/-- Witness for C1: a transport answering 503 on each of the
`attempts = 2` retries plus the first attempt gives 3 attempts, delays
250 and 500 ms, and surfaces the (last) 503 failure. -/
theorem uploadFileWithPresigned_allRetryableFail_witness :
    uploadFileWithPresigned (fun _ => some (.status 503)) 2 =
      ⟨3, [250, 500], some (.status 503)⟩ := by
  rw [uploadFileWithPresigned_allRetryableFail (fun _ => some (AttemptErr.status 503)) 2
    (fun _ => AttemptErr.status 503) (fun _ => rfl) (fun _ => rfl)]
  decide

/-- C2 counterexample: a transport that always returns status 400 is
still retried — with the default `attempts = 2` the loop performs 3
attempts, not 1, because the catch block of `uploadFileWithPresigned`
retries every rejection without inspecting the status. -/
theorem uploadFileWithPresigned_400_retried_counterexample :
    (uploadFileWithPresigned (fun _ => some (.status 400)) 2).attemptsMade = 3 ∧
    ¬ (uploadFileWithPresigned (fun _ => some (.status 400)) 2).attemptsMade = 1 := by
  decide

/-- C2 amended: the code does not classify failures by status, so a
failure with a 4xx status (for example 400) is retried like any other
failure: a transport always answering 400 yields `attempts + 1` attempts
with the usual backoff delays, and the last 400 failure is surfaced. -/
theorem uploadFileWithPresigned_400_retried (attempts : Nat) :
    uploadFileWithPresigned (fun _ => some (.status 400)) attempts =
      ⟨attempts + 1, (List.range attempts).map (fun i => 250 * 2 ^ i), some (.status 400)⟩ := by
  have h := retryGo_allFail (fun _ => some (AttemptErr.status 400)) (fun _ => AttemptErr.status 400)
    (fun _ => rfl) attempts 0
  unfold uploadFileWithPresigned
  rw [h]
  have hfun : (fun k => backoff (0 + k)) = (fun i : Nat => 250 * 2 ^ i) := by
    funext k
    simp [backoff, Nat.mul_comm]
  rw [hfun]

/-- C8 counterexample: an attempt that ends in a network error is a
terminal failure of that attempt (`onerror` rejects the promise), yet
the handle stays registered in `activeXhrs`: starting from an empty map,
after `doUpload` for id 0 settles with a network error the map still
contains 0. -/
theorem doUpload_networkError_leaks_counterexample :
    (doUpload [] 0 .networkError).result = some .network ∧
    0 ∈ (doUpload [] 0 .networkError).final := by
  decide

/-- C8 amended: `doUpload` registers the handle under the file's index
before the attempt runs, and deregisters it on the `onload` outcomes
(2xx success and non-2xx HTTP failure); on a network error (`onerror`)
the attempt fails but the handle remains registered until a retry
overwrites it or `cancelUploads` clears the map. -/
theorem doUpload_handle_lifecycle :
    (∀ m id out, id ∈ (doUpload m id out).registered) ∧
    (∀ m id status, (doUpload m id (XhrOutcome.load status)).final = mapDelete (mapSet m id) id ∧
      id ∉ (doUpload m id (XhrOutcome.load status)).final) ∧
    (∀ m id, (doUpload m id XhrOutcome.networkError).final = mapSet m id ∧
      id ∈ (doUpload m id XhrOutcome.networkError).final ∧
      (doUpload m id XhrOutcome.networkError).result = some .network) := by
  have hmem : ∀ m id, id ∈ mapSet m id := by
    intro m id
    simp only [mapSet]
    split
    · assumption
    · simp
  have hdel : ∀ m id, id ∉ mapDelete m id := by
    intro m id
    simp [mapDelete]
  refine ⟨?_, ?_, ?_⟩
  · intro m id out
    cases out with
    | load status =>
      simp only [doUpload]
      split <;> exact hmem m id
    | networkError => exact hmem m id
  · intro m id status
    constructor
    · simp only [doUpload]
      split <;> rfl
    · simp only [doUpload]
      split <;> exact hdel _ id
  · intro m id
    exact ⟨rfl, hmem m id, rfl⟩

/-- `reduce((a, b) => a + b, 0)` is the list sum. -/
theorem foldl_add_eq_sum (l : List Nat) : l.foldl (fun a b => a + b) 0 = l.sum :=
  List.sum_eq_foldl.symm

/-- C5: on every progress tick the overall progress equals
`Math.round((sum of uploaded bytes) / (sum of declared total bytes, or 1
if that sum is zero) * 100)`; in particular after two files report
(50, 100) and (20, 50) the aggregate is `round(70 / 150 * 100) = 47`. -/
theorem onProgressTick_aggregates :
    (∀ st i loaded total,
      (onProgressTick st i loaded total).overallProgress =
        jsRound ((((st.uploadedBytes.set i loaded).sum : ℚ) /
          (if (st.totalBytes.set i total).sum = 0 then (1 : ℚ)
           else ((st.totalBytes.set i total).sum : ℚ))) * 100)) ∧
    (onProgressTick (onProgressTick ⟨[0, 0], [0, 0], 0⟩ 0 50 100) 1 20 50).overallProgress = 47 := by
  constructor
  · intro st i loaded total
    simp only [onProgressTick, foldl_add_eq_sum]
    congr 1
    split_ifs with h <;> simp [h]
  · show jsRound ((70 : ℚ) / 150 * 100) = 47
    rw [jsRound, Int.floor_eq_iff]
    norm_num

/-- C4: when the `files` and `uploads` arrays have different lengths,
`uploadFiles` fails immediately with the precondition error — thrown
before `isUploading` is touched and before any worker is spawned — and
no upload attempt is started for any index. -/
theorem uploadFiles_length_mismatch (names : List String) (uploadsLen concurrency : Nat)
    (evs : List Ev) (h : names.length ≠ uploadsLen) :
    uploadFiles names uploadsLen concurrency evs = .error "files and uploads length mismatch" ∧
    attemptsStarted (uploadFiles names uploadsLen concurrency evs) = [] := by
  rw [uploadFiles, if_pos h]
  exact ⟨rfl, rfl⟩

/-- Witness for C4: 2 files against 3 descriptors fail the precondition
with zero upload attempts. -/
theorem uploadFiles_length_mismatch_witness :
    uploadFiles ["a.pdf", "b.pdf"] 3 3 [] = .error "files and uploads length mismatch" ∧
    attemptsStarted (uploadFiles ["a.pdf", "b.pdf"] 3 3 []) = [] :=
  uploadFiles_length_mismatch ["a.pdf", "b.pdf"] 3 3 [] (by decide)

/-- C6: filename resolution is a total function of (headers, url) —
every parse error degrades to the next tier by construction — and on the
spec's concrete cases: a plain `filename="merged.pdf"` parameter gives
`merged.pdf` (winning over the URL path); the extended parameter
`filename*=UTF-8` + two apostrophes + `relat%C3%B3rio.pdf` percent-decodes
to `relatório.pdf`; with no header, the URL `https://x/y/z/final.pdf`
gives its last path segment `final.pdf`; with no header and no path
segment (or no URL at all) the default `merged.pdf` is returned; and a
value whose percent-decoding fails is returned raw and quote-stripped. -/
theorem getFilenameFromResponse_spec :
    getFilenameFromResponse [("Content-Disposition", mergedHeaderExample)] (some "https://x/y")
      = "merged.pdf" ∧
    getFilenameFromResponse [("Content-Disposition", starHeaderExample)] none
      = "relatório.pdf" ∧
    getFilenameFromResponse [] (some "https://x/y/z/final.pdf") = "final.pdf" ∧
    getFilenameFromResponse [] (some "https://x") = "merged.pdf" ∧
    getFilenameFromResponse [] none = "merged.pdf" ∧
    getFilenameFromResponse [("Content-Disposition", badDecodeHeaderExample)] none
      = "a%zz.pdf" := by
  refine ⟨by decide, by decide, by decide, by decide, by decide, by decide⟩

/-- C10: with equal-length inputs, `uploadFiles` sets `isUploading` to
`true` in its prologue, and the `finally` block resets it to `false` on
every exit path, so after the call settles (with either outcome)
`isUploading` is `false`. -/
theorem uploadFiles_isUploading_reset (names : List String) (uploadsLen concurrency : Nat)
    (evs : List Ev) (h : names.length = uploadsLen) :
    (initBatch names concurrency).isUploading = true ∧
    ∀ s r, uploadFiles names uploadsLen concurrency evs = .ok (s, r) → s.isUploading = false := by
  refine ⟨rfl, ?_⟩
  intro s r hok
  rw [uploadFiles, if_neg (by simp [h])] at hok
  have hs : s = finishBatch (runEvents (initBatch names concurrency) evs) := by
    have := Except.ok.inj hok
    exact (congrArg Prod.fst this).symm
  rw [hs]
  rfl

/-- Witness for C10: a one-file batch with an empty schedule settles
with `isUploading = false`, and the prologue had set it to `true`. -/
theorem uploadFiles_isUploading_reset_witness :
    (initBatch ["a.pdf"] 3).isUploading = true ∧
    (finishBatch (runEvents (initBatch ["a.pdf"] 3) [])).isUploading = false :=
  ⟨(uploadFiles_isUploading_reset ["a.pdf"] 1 3 [] rfl).1,
   (uploadFiles_isUploading_reset ["a.pdf"] 1 3 [] rfl).2
     (finishBatch (runEvents (initBatch ["a.pdf"] 3) []))
     (settleResult (runEvents (initBatch ["a.pdf"] 3) [])) rfl⟩

/-! ## Batch-system lemmas -/

/-- `get?` of a replicated list. -/
theorem replicate_get? {α : Type} (a : α) :
    ∀ (n i : Nat), (List.replicate n a).get? i = if i < n then some a else none
  | 0, i => by simp
  | n + 1, 0 => by simp [List.replicate]
  | n + 1, i + 1 => by
    simp only [List.replicate, List.get?_cons_succ, replicate_get? a n i]
    by_cases h : i < n
    · rw [if_pos h, if_pos (by omega)]
    · rw [if_neg h, if_neg (by omega)]

/-- Whatever `get?` returns on a replicated list is the replicated
element. -/
theorem replicate_get?_eq {α : Type} {a b : α} {n i : Nat}
    (h : (List.replicate n a).get? i = some b) : b = a := by
  rw [replicate_get? a n i] at h
  split at h
  · exact (Option.some.inj h).symm
  · cases h

/-- In a list of pairs whose second components are `Nodup`, the second
component determines the pair. -/
theorem snd_nodup_eq {l : List (Nat × Nat)} (h : (l.map Prod.snd).Nodup)
    {p q : Nat × Nat} (hp : p ∈ l) (hq : q ∈ l) (hpq : p.2 = q.2) : p = q := by
  induction l with
  | nil => cases hp
  | cons x rest ih =>
    rw [List.map_cons, List.nodup_cons] at h
    rcases h with ⟨hx, hr⟩
    rcases List.mem_cons.mp hp with hp1 | hp1 <;> rcases List.mem_cons.mp hq with hq1 | hq1
    · rw [hp1, hq1]
    · exfalso
      apply hx
      exact List.mem_map.mpr ⟨q, hq1, by rw [← hpq, hp1]⟩
    · exfalso
      apply hx
      exact List.mem_map.mpr ⟨p, hp1, by rw [hpq, hq1]⟩
    · exact ih hr hp1 hq1

/-- Membership after `mapSet`. -/
theorem mem_mapSet {m : List Nat} {i j : Nat} (h : j ∈ mapSet m i) : j ∈ m ∨ j = i := by
  simp only [mapSet] at h
  split at h
  · exact .inl h
  · rcases List.mem_append.mp h with h1 | h1
    · exact .inl h1
    · simp only [List.mem_singleton] at h1
      exact .inr h1

/-- `mapSet` contains the inserted key. -/
theorem mem_mapSet_self (m : List Nat) (i : Nat) : i ∈ mapSet m i := by
  simp only [mapSet]
  split
  · assumption
  · simp

/-- `mapSet` keeps existing keys. -/
theorem mem_mapSet_of_mem {m : List Nat} {j : Nat} (i : Nat) (h : j ∈ m) : j ∈ mapSet m i := by
  simp only [mapSet]
  split
  · exact h
  · exact List.mem_append.mpr (.inl h)

/-- Membership after `mapDelete`. -/
theorem mem_mapDelete {m : List Nat} {i j : Nat} : j ∈ mapDelete m i ↔ j ∈ m ∧ j ≠ i := by
  simp [mapDelete]

/-- Pointwise description of `markAborted`. -/
theorem markAborted_get? (handles : List Nat) :
    ∀ (fs : List FileSt) (base j : Nat),
      (markAborted handles base fs).get? j =
        (fs.get? j).map
          (fun st => if (base + j) ∈ handles ∧ st = .inflight then .aborted else st)
  | [], base, j => by simp [markAborted]
  | st :: rest, base, 0 => by simp [markAborted]
  | st :: rest, base, j + 1 => by
    have h := markAborted_get? handles rest (base + 1) j
    have harith : base + 1 + j = base + (j + 1) := by omega
    rw [harith] at h
    simpa [markAborted] using h

/-- `markAborted` preserves the length. -/
theorem markAborted_length (handles : List Nat) :
    ∀ (fs : List FileSt) (base : Nat), (markAborted handles base fs).length = fs.length
  | [], _ => rfl
  | st :: rest, base => by
    simp [markAborted, markAborted_length handles rest (base + 1)]

/-- The invariant holds right after the prologue of `uploadFiles`. -/
theorem initBatch_inv (names : List String) (concurrency : Nat) :
    BatchInv (initBatch names concurrency) := by
  refine ⟨?_, ⟨0, by simp, by simp, by simp [initBatch]⟩, ?_, ?_, ?_, ?_, ?_, ?_, ?_, ?_, ?_, ?_, ?_⟩
  · simp [initBatch]
  · intro _
    simp [initBatch]
  · intro i hi
    simp [initBatch] at hi
  · intro i st h
    simp only [initBatch] at h
    exact .inl (replicate_get?_eq h)
  · intro i hi
    simp [initBatch] at hi
  · intro i h
    simp only [initBatch] at h
    cases replicate_get?_eq h
  · intro w i h
    simp only [initBatch] at h
    cases replicate_get?_eq h
  · intro w i h
    simp only [initBatch] at h
    cases replicate_get?_eq h
  · intro i h
    simp only [initBatch] at h
    cases replicate_get?_eq h
  · intro i h
    simp only [initBatch] at h
    cases replicate_get?_eq h
  · intro i h
    simp only [initBatch] at h
    cases replicate_get?_eq h
  · intro w h
    simp only [initBatch] at h
    cases replicate_get?_eq h

/-- Preservation: a worker that draws an exhausted or cancelled cursor
just records `done` and bumps the cursor. -/
theorem inv_worker_done {s : BatchState} (inv : BatchInv s) (w : Nat)
    (hwlen : w < s.workers.length) (hready : s.workers.get? w = some .ready)
    (hdone : s.cancelled = true ∨ s.names.length < s.idx + 1) :
    BatchInv { s with idx := s.idx + 1, workers := s.workers.set w .done } := by
  refine ⟨inv.files_len, ?_, ?_, inv.claimed_not_pending, inv.touched_claimed,
    inv.handles_status, inv.inflight_handle, ?_, ?_, ?_, ?_, inv.aborted_cancelled, ?_⟩
  · obtain ⟨k, h1, h2, h3⟩ := inv.claims_range
    exact ⟨k, by dsimp only; omega, h2, h3⟩
  · intro hcf
    have hle : s.names.length ≤ s.idx := by
      rcases hdone with h | h
      · rw [hcf] at h
        cases h
      · omega
    have h2 := inv.claims_full hcf
    rw [Nat.min_eq_right hle] at h2
    rw [Nat.min_eq_right (by dsimp only; omega)]
    exact h2
  · intro w2 j h
    by_cases hww : w2 = w
    · subst hww
      rw [List.get?_set_eq_of_lt _ hwlen] at h
      simp at h
    · rw [List.get?_set_ne _ _ (fun he => hww he.symm)] at h
      exact inv.uploading_claimed w2 j h
  · intro w2 j h
    by_cases hww : w2 = w
    · subst hww
      rw [List.get?_set_eq_of_lt _ hwlen] at h
      simp at h
    · rw [List.get?_set_ne _ _ (fun he => hww he.symm)] at h
      exact inv.uploading_status w2 j h
  · intro j h
    obtain ⟨w0, hw0⟩ := inv.inflight_worker j h
    have hww : w0 ≠ w := by
      intro he
      rw [he, hready] at hw0
      simp at hw0
    exact ⟨w0, by rw [List.get?_set_ne _ _ (fun he => hww he.symm)]; exact hw0⟩
  · intro j h
    obtain ⟨w0, msg, hw0⟩ := inv.failed_thrower j h
    have hww : w0 ≠ w := by
      intro he
      rw [he, hready] at hw0
      simp at hw0
    exact ⟨w0, msg, by rw [List.get?_set_ne _ _ (fun he => hww he.symm)]; exact hw0⟩
  · intro w2 h
    by_cases hww : w2 = w
    · exact hdone
    · rw [List.get?_set_ne _ _ (fun he => hww he.symm)] at h
      rcases inv.done_idx w2 h with h1 | h1
      · exact .inl h1
      · exact .inr (by dsimp only; omega)

/-- Preservation: a worker that draws a fresh index below the length in
an uncancelled batch claims it and starts its upload. -/
theorem inv_worker_claims {s : BatchState} (inv : BatchInv s) (w : Nat)
    (hwlen : w < s.workers.length) (hready : s.workers.get? w = some .ready)
    (hlt : s.idx < s.names.length) (hc : s.cancelled = false) :
    BatchInv { s with idx := s.idx + 1,
                      workers := s.workers.set w (.uploading s.idx),
                      claims := s.claims ++ [(w, s.idx)],
                      files := s.files.set s.idx .inflight,
                      handles := mapSet s.handles s.idx } := by
  have hsnd : s.claims.map Prod.snd = List.range s.idx := by
    have h := inv.claims_full hc
    rwa [Nat.min_eq_left (Nat.le_of_lt hlt)] at h
  have hfresh : s.idx ∉ s.claims.map Prod.snd := by
    rw [hsnd]
    simp
  have hflen : s.idx < s.files.length := by
    rw [inv.files_len]
    exact hlt
  have hpend : s.files.get? s.idx = some .pending := by
    have hex : ∃ st, s.files.get? s.idx = some st := by
      rcases h : s.files.get? s.idx with _ | st
      · rw [List.get?_eq_none] at h
        omega
      · exact ⟨st, rfl⟩
    obtain ⟨st, hst⟩ := hex
    rcases inv.touched_claimed _ _ hst with h1 | h1
    · rw [hst, h1]
    · exact absurd h1 hfresh
  have hsnd' : ((s.claims ++ [(w, s.idx)]).map Prod.snd) = List.range (s.idx + 1) := by
    rw [List.map_append, hsnd, List.range_succ]
    rfl
  refine ⟨?_, ?_, ?_, ?_, ?_, ?_, ?_, ?_, ?_, ?_, ?_, ?_, ?_⟩
  · simp [List.length_set, inv.files_len]
  · exact ⟨s.idx + 1, Nat.le_refl _, by dsimp only; omega, hsnd'⟩
  · intro _
    rw [hsnd', Nat.min_eq_left (by dsimp only; omega)]
  · intro j hj
    rw [hsnd'] at hj
    have hj' := List.mem_range.mp hj
    by_cases hji : j = s.idx
    · subst hji
      rw [List.get?_set_eq_of_lt _ hflen]
      simp
    · rw [List.get?_set_ne _ _ (fun he => hji he.symm)]
      exact inv.claimed_not_pending j (by rw [hsnd]; exact List.mem_range.mpr (by omega))
  · intro j st h
    by_cases hji : j = s.idx
    · subst hji
      right
      rw [hsnd']
      exact List.mem_range.mpr (by omega)
    · rw [List.get?_set_ne _ _ (fun he => hji he.symm)] at h
      rcases inv.touched_claimed j st h with h1 | h1
      · exact .inl h1
      · right
        rw [hsnd]at h1
        rw [hsnd']
        exact List.mem_range.mpr (by have := List.mem_range.mp h1; omega)
  · intro j hj
    by_cases hji : j = s.idx
    · subst hji
      left
      rw [List.get?_set_eq_of_lt _ hflen]
    · rcases mem_mapSet hj with h1 | h1
      · rw [List.get?_set_ne _ _ (fun he => hji he.symm)]
        exact inv.handles_status j h1
      · exact absurd h1 hji
  · intro j h
    by_cases hji : j = s.idx
    · subst hji
      exact mem_mapSet_self _ _
    · rw [List.get?_set_ne _ _ (fun he => hji he.symm)] at h
      exact mem_mapSet_of_mem _ (inv.inflight_handle j h)
  · intro w2 j h
    by_cases hww : w2 = w
    · subst hww
      rw [List.get?_set_eq_of_lt _ hwlen] at h
      simp only [Option.some.injEq, WorkerSt.uploading.injEq] at h
      subst h
      exact List.mem_append.mpr (.inr (by simp))
    · rw [List.get?_set_ne _ _ (fun he => hww he.symm)] at h
      exact List.mem_append.mpr (.inl (inv.uploading_claimed w2 j h))
  · intro w2 j h
    by_cases hww : w2 = w
    · subst hww
      rw [List.get?_set_eq_of_lt _ hwlen] at h
      simp only [Option.some.injEq, WorkerSt.uploading.injEq] at h
      subst h
      left
      rw [List.get?_set_eq_of_lt _ hflen]
    · rw [List.get?_set_ne _ _ (fun he => hww he.symm)] at h
      have hold := inv.uploading_status w2 j h
      have hji : j ≠ s.idx := by
        intro he
        subst he
        rcases hold with h1 | h1 <;> rw [hpend] at h1 <;> simp at h1
      rw [List.get?_set_ne _ _ (fun he => hji he.symm)]
      exact hold
  · intro j h
    by_cases hji : j = s.idx
    · subst hji
      exact ⟨w, by rw [List.get?_set_eq_of_lt _ hwlen]⟩
    · rw [List.get?_set_ne _ _ (fun he => hji he.symm)] at h
      obtain ⟨w0, hw0⟩ := inv.inflight_worker j h
      have hww : w0 ≠ w := by
        intro he
        rw [he, hready] at hw0
        simp at hw0
      exact ⟨w0, by rw [List.get?_set_ne _ _ (fun he => hww he.symm)]; exact hw0⟩
  · intro j h
    by_cases hji : j = s.idx
    · subst hji
      rw [List.get?_set_eq_of_lt _ hflen] at h
      simp at h
    · rw [List.get?_set_ne _ _ (fun he => hji he.symm)] at h
      obtain ⟨w0, msg, hw0⟩ := inv.failed_thrower j h
      have hww : w0 ≠ w := by
        intro he
        rw [he, hready] at hw0
        simp at hw0
      exact ⟨w0, msg, by rw [List.get?_set_ne _ _ (fun he => hww he.symm)]; exact hw0⟩
  · intro j h
    by_cases hji : j = s.idx
    · subst hji
      rw [List.get?_set_eq_of_lt _ hflen] at h
      simp at h
    · rw [List.get?_set_ne _ _ (fun he => hji he.symm)] at h
      exact inv.aborted_cancelled j h
  · intro w2 h
    by_cases hww : w2 = w
    · subst hww
      rw [List.get?_set_eq_of_lt _ hwlen] at h
      simp at h
    · rw [List.get?_set_ne _ _ (fun he => hww he.symm)] at h
      rcases inv.done_idx w2 h with h1 | h1
      · exact .inl h1
      · exact .inr (by omega)

/-- The invariant is preserved by a `claim` event. -/
theorem inv_claim {s : BatchState} (inv : BatchInv s) (w : Nat) :
    BatchInv (applyEv s (Ev.claim w)) := by
  cases hw : s.workers.get? w with
  | none => simpa only [applyEv, hw] using inv
  | some ws =>
    cases ws with
    | ready =>
      have hwlen : w < s.workers.length := by
        rcases List.get?_eq_some.mp hw with ⟨h, _⟩
        exact h
      by_cases hge : s.names.length ≤ s.idx
      · have h2 := inv_worker_done inv w hwlen hw (.inr (by omega))
        simp only [applyEv, hw]
        rw [if_pos hge]
        exact h2
      · by_cases hc : s.cancelled = true
        · have h2 := inv_worker_done inv w hwlen hw (.inl hc)
          simp only [applyEv, hw]
          rw [if_neg hge, if_pos hc]
          exact h2
        · have hc' : s.cancelled = false := by
            cases hb : s.cancelled
            · rfl
            · exact absurd hb hc
          have h2 := inv_worker_claims inv w hwlen hw (by omega) hc'
          simp only [applyEv, hw]
          rw [if_neg hge, if_neg hc]
          exact h2
    | uploading i => simpa only [applyEv, hw] using inv
    | done => simpa only [applyEv, hw] using inv
    | threw msg => simpa only [applyEv, hw] using inv

/-- The invariant is preserved by a `finish` event. -/
theorem inv_finish {s : BatchState} (inv : BatchInv s) (w : Nat) (r : UploadFinal) :
    BatchInv (applyEv s (Ev.finish w r)) := by
  cases hw : s.workers.get? w with
  | none => simpa only [applyEv, hw] using inv
  | some ws =>
    cases ws with
    | ready => simpa only [applyEv, hw] using inv
    | done => simpa only [applyEv, hw] using inv
    | threw msg => simpa only [applyEv, hw] using inv
    | uploading i =>
      have hwlen : w < s.workers.length := by
        rcases List.get?_eq_some.mp hw with ⟨h, _⟩
        exact h
      have hclaim := inv.uploading_claimed w i hw
      have hstat := inv.uploading_status w i hw
      have hci : i ∈ s.claims.map Prod.snd := List.mem_map.mpr ⟨(w, i), hclaim, rfl⟩
      have hnodup : (s.claims.map Prod.snd).Nodup := by
        obtain ⟨k, _, _, h3⟩ := inv.claims_range
        rw [h3]
        exact List.nodup_range k
      have huniq : ∀ w2 j, ¬ w2 = w → s.workers.get? w2 = some (.uploading j) → ¬ j = i := by
        intro w2 j hne hw2 hji
        subst hji
        have hp := snd_nodup_eq hnodup (inv.uploading_claimed w2 j hw2) hclaim rfl
        exact hne (congrArg Prod.fst hp)
      have hflen : i < s.files.length := by
        rcases hstat with h1 | h1 <;>
          (rcases List.get?_eq_some.mp h1 with ⟨h, _⟩; exact h)
      cases r with
      | ok =>
        simp only [applyEv, hw]
        refine ⟨?_, inv.claims_range, inv.claims_full, ?_, ?_, ?_, ?_, ?_, ?_, ?_, ?_, ?_, ?_⟩
        · simp [List.length_set, inv.files_len]
        · intro j hj
          by_cases hji : j = i
          · subst hji
            rw [List.get?_set_eq_of_lt _ hflen]
            simp
          · rw [List.get?_set_ne _ _ (fun he => hji he.symm)]
            exact inv.claimed_not_pending j hj
        · intro j st h
          by_cases hji : j = i
          · subst hji
            exact .inr hci
          · rw [List.get?_set_ne _ _ (fun he => hji he.symm)] at h
            exact inv.touched_claimed j st h
        · intro j hj
          obtain ⟨hjm, hji⟩ := mem_mapDelete.mp hj
          rw [List.get?_set_ne _ _ (fun he => hji he.symm)]
          exact inv.handles_status j hjm
        · intro j h
          by_cases hji : j = i
          · subst hji
            rw [List.get?_set_eq_of_lt _ hflen] at h
            simp at h
          · rw [List.get?_set_ne _ _ (fun he => hji he.symm)] at h
            exact mem_mapDelete.mpr ⟨inv.inflight_handle j h, hji⟩
        · intro w2 j h
          by_cases hww : w2 = w
          · subst hww
            rw [List.get?_set_eq_of_lt _ hwlen] at h
            simp at h
          · rw [List.get?_set_ne _ _ (fun he => hww he.symm)] at h
            exact inv.uploading_claimed w2 j h
        · intro w2 j h
          by_cases hww : w2 = w
          · subst hww
            rw [List.get?_set_eq_of_lt _ hwlen] at h
            simp at h
          · rw [List.get?_set_ne _ _ (fun he => hww he.symm)] at h
            have hji := huniq w2 j hww h
            rw [List.get?_set_ne _ _ (fun he => hji he.symm)]
            exact inv.uploading_status w2 j h
        · intro j h
          by_cases hji : j = i
          · subst hji
            rw [List.get?_set_eq_of_lt _ hflen] at h
            simp at h
          · rw [List.get?_set_ne _ _ (fun he => hji he.symm)] at h
            obtain ⟨w0, hw0⟩ := inv.inflight_worker j h
            have hww : ¬ w0 = w := by
              intro he
              rw [he, hw] at hw0
              simp only [Option.some.injEq, WorkerSt.uploading.injEq] at hw0
              exact hji hw0.symm
            exact ⟨w0, by rw [List.get?_set_ne _ _ (fun he => hww he.symm)]; exact hw0⟩
        · intro j h
          by_cases hji : j = i
          · subst hji
            rw [List.get?_set_eq_of_lt _ hflen] at h
            simp at h
          · rw [List.get?_set_ne _ _ (fun he => hji he.symm)] at h
            obtain ⟨w0, msg0, hw0⟩ := inv.failed_thrower j h
            have hww : ¬ w0 = w := by
              intro he
              rw [he, hw] at hw0
              simp at hw0
            exact ⟨w0, msg0, by rw [List.get?_set_ne _ _ (fun he => hww he.symm)]; exact hw0⟩
        · intro j h
          by_cases hji : j = i
          · subst hji
            rw [List.get?_set_eq_of_lt _ hflen] at h
            simp at h
          · rw [List.get?_set_ne _ _ (fun he => hji he.symm)] at h
            exact inv.aborted_cancelled j h
        · intro w2 h
          by_cases hww : w2 = w
          · subst hww
            rw [List.get?_set_eq_of_lt _ hwlen] at h
            simp at h
          · rw [List.get?_set_ne _ _ (fun he => hww he.symm)] at h
            exact inv.done_idx w2 h
      | fail msg leak =>
        simp only [applyEv, hw]
        refine ⟨?_, inv.claims_range, inv.claims_full, ?_, ?_, ?_, ?_, ?_, ?_, ?_, ?_, ?_, ?_⟩
        · simp [List.length_set, inv.files_len]
        · intro j hj
          by_cases hji : j = i
          · subst hji
            rw [List.get?_set_eq_of_lt _ hflen]
            simp
          · rw [List.get?_set_ne _ _ (fun he => hji he.symm)]
            exact inv.claimed_not_pending j hj
        · intro j st h
          by_cases hji : j = i
          · subst hji
            exact .inr hci
          · rw [List.get?_set_ne _ _ (fun he => hji he.symm)] at h
            exact inv.touched_claimed j st h
        · intro j hj
          have hjm : j ∈ s.handles := by
            split at hj
            · exact hj
            · exact (mem_mapDelete.mp hj).1
          by_cases hji : j = i
          · subst hji
            right
            rw [List.get?_set_eq_of_lt _ hflen]
          · rw [List.get?_set_ne _ _ (fun he => hji he.symm)]
            exact inv.handles_status j hjm
        · intro j h
          by_cases hji : j = i
          · subst hji
            rw [List.get?_set_eq_of_lt _ hflen] at h
            simp at h
          · rw [List.get?_set_ne _ _ (fun he => hji he.symm)] at h
            have hjm := inv.inflight_handle j h
            split
            · exact hjm
            · exact mem_mapDelete.mpr ⟨hjm, hji⟩
        · intro w2 j h
          by_cases hww : w2 = w
          · subst hww
            rw [List.get?_set_eq_of_lt _ hwlen] at h
            simp at h
          · rw [List.get?_set_ne _ _ (fun he => hww he.symm)] at h
            exact inv.uploading_claimed w2 j h
        · intro w2 j h
          by_cases hww : w2 = w
          · subst hww
            rw [List.get?_set_eq_of_lt _ hwlen] at h
            simp at h
          · rw [List.get?_set_ne _ _ (fun he => hww he.symm)] at h
            have hji := huniq w2 j hww h
            rw [List.get?_set_ne _ _ (fun he => hji he.symm)]
            exact inv.uploading_status w2 j h
        · intro j h
          by_cases hji : j = i
          · subst hji
            rw [List.get?_set_eq_of_lt _ hflen] at h
            simp at h
          · rw [List.get?_set_ne _ _ (fun he => hji he.symm)] at h
            obtain ⟨w0, hw0⟩ := inv.inflight_worker j h
            have hww : ¬ w0 = w := by
              intro he
              rw [he, hw] at hw0
              simp only [Option.some.injEq, WorkerSt.uploading.injEq] at hw0
              exact hji hw0.symm
            exact ⟨w0, by rw [List.get?_set_ne _ _ (fun he => hww he.symm)]; exact hw0⟩
        · intro j h
          by_cases hji : j = i
          · subst hji
            exact ⟨w, failMsg s.names j msg, by rw [List.get?_set_eq_of_lt _ hwlen]⟩
          · rw [List.get?_set_ne _ _ (fun he => hji he.symm)] at h
            obtain ⟨w0, msg0, hw0⟩ := inv.failed_thrower j h
            have hww : ¬ w0 = w := by
              intro he
              rw [he, hw] at hw0
              simp at hw0
            exact ⟨w0, msg0, by rw [List.get?_set_ne _ _ (fun he => hww he.symm)]; exact hw0⟩
        · intro j h
          by_cases hji : j = i
          · subst hji
            rw [List.get?_set_eq_of_lt _ hflen] at h
            simp at h
          · rw [List.get?_set_ne _ _ (fun he => hji he.symm)] at h
            exact inv.aborted_cancelled j h
        · intro w2 h
          by_cases hww : w2 = w
          · subst hww
            rw [List.get?_set_eq_of_lt _ hwlen] at h
            simp at h
          · rw [List.get?_set_ne _ _ (fun he => hww he.symm)] at h
            exact inv.done_idx w2 h

/-- The invariant is preserved by a `cancel` event. -/
theorem inv_cancel {s : BatchState} (inv : BatchInv s) :
    BatchInv (applyEv s Ev.cancel) := by
  simp only [applyEv]
  have hget : ∀ j, (markAborted s.handles 0 s.files).get? j =
      (s.files.get? j).map
        (fun st => if j ∈ s.handles ∧ st = FileSt.inflight then FileSt.aborted else st) := by
    intro j
    have h := markAborted_get? s.handles s.files 0 j
    simpa using h
  refine ⟨?_, inv.claims_range, ?_, ?_, ?_, ?_, ?_, inv.uploading_claimed, ?_, ?_, ?_, ?_, ?_⟩
  · rw [markAborted_length]
    exact inv.files_len
  · intro hcf
    simp at hcf
  · intro j hj hcontra
    rw [hget j] at hcontra
    rcases horig : s.files.get? j with _ | st0
    · rw [horig] at hcontra
      simp at hcontra
    · rw [horig] at hcontra
      simp only [Option.map_some', Option.some.injEq] at hcontra
      split at hcontra
      · cases hcontra
      · exact inv.claimed_not_pending j hj (by rw [horig, hcontra])
  · intro j st h
    rw [hget j] at h
    rcases horig : s.files.get? j with _ | st0
    · rw [horig] at h
      simp at h
    · rw [horig] at h
      simp only [Option.map_some', Option.some.injEq] at h
      rcases inv.touched_claimed j st0 horig with h1 | h1
      · left
        rw [h1] at h
        rw [if_neg (by simp)] at h
        exact h.symm
      · exact .inr h1
  · intro j hj
    cases hj
  · intro j h
    rw [hget j] at h
    rcases horig : s.files.get? j with _ | st0
    · rw [horig] at h
      simp at h
    · rw [horig] at h
      simp only [Option.map_some', Option.some.injEq] at h
      split at h
      · cases h
      · rename_i hcond
        exact absurd ⟨inv.inflight_handle j (by rw [horig, h]), h⟩ hcond
  · intro w2 j h
    rcases inv.uploading_status w2 j h with h1 | h1
    · right
      rw [hget j, h1]
      simp [inv.inflight_handle j h1]
    · right
      rw [hget j, h1]
      simp
  · intro j h
    rw [hget j] at h
    rcases horig : s.files.get? j with _ | st0
    · rw [horig] at h
      simp at h
    · rw [horig] at h
      simp only [Option.map_some', Option.some.injEq] at h
      split at h
      · cases h
      · rename_i hcond
        exact absurd ⟨inv.inflight_handle j (by rw [horig, h]), h⟩ hcond
  · intro j h
    rw [hget j] at h
    rcases horig : s.files.get? j with _ | st0
    · rw [horig] at h
      simp at h
    · rw [horig] at h
      simp only [Option.map_some', Option.some.injEq] at h
      split at h
      · cases h
      · exact inv.failed_thrower j (by rw [horig, h])
  · intro j h
    rfl
  · intro w2 h
    exact .inl rfl

/-- The invariant is preserved by every event. -/
theorem inv_step {s : BatchState} (inv : BatchInv s) (e : Ev) : BatchInv (applyEv s e) := by
  cases e with
  | claim w => exact inv_claim inv w
  | finish w r => exact inv_finish inv w r
  | cancel => exact inv_cancel inv

/-- The invariant holds in every reachable state. -/
theorem inv_run {s : BatchState} (inv : BatchInv s) : ∀ evs, BatchInv (runEvents s evs)
  | [] => inv
  | e :: es => inv_run (inv_step inv e) es

/-! ### Equation lemmas for `applyEv` -/

/-- `claim` for an unknown worker is a no-op. -/
theorem applyEv_claim_none {s : BatchState} {w : Nat} (hw : s.workers.get? w = none) :
    applyEv s (Ev.claim w) = s := by
  simp only [applyEv, hw]

/-- `claim` for a worker that is not `ready` is a no-op. -/
theorem applyEv_claim_notready {s : BatchState} {w : Nat} {ws : WorkerSt}
    (hw : s.workers.get? w = some ws) (hns : ¬ ws = WorkerSt.ready) :
    applyEv s (Ev.claim w) = s := by
  cases ws with
  | ready => exact absurd rfl hns
  | uploading i => simp only [applyEv, hw]
  | done => simp only [applyEv, hw]
  | threw m => simp only [applyEv, hw]

/-- `claim` with an exhausted cursor: record `done`, bump the cursor. -/
theorem applyEv_claim_exhausted {s : BatchState} {w : Nat}
    (hw : s.workers.get? w = some WorkerSt.ready) (hge : s.names.length ≤ s.idx) :
    applyEv s (Ev.claim w) =
      { s with idx := s.idx + 1, workers := s.workers.set w .done } := by
  simp only [applyEv, hw]
  rw [if_pos hge]

/-- `claim` after cancellation: record `done`, bump the cursor. -/
theorem applyEv_claim_cancelled {s : BatchState} {w : Nat}
    (hw : s.workers.get? w = some WorkerSt.ready) (hge : ¬ s.names.length ≤ s.idx)
    (hc : s.cancelled = true) :
    applyEv s (Ev.claim w) =
      { s with idx := s.idx + 1, workers := s.workers.set w .done } := by
  simp only [applyEv, hw]
  rw [if_neg hge, if_pos hc]

/-- `claim` of a fresh index: start the upload. -/
theorem applyEv_claim_new {s : BatchState} {w : Nat}
    (hw : s.workers.get? w = some WorkerSt.ready) (hge : ¬ s.names.length ≤ s.idx)
    (hc : ¬ s.cancelled = true) :
    applyEv s (Ev.claim w) =
      { s with idx := s.idx + 1,
               workers := s.workers.set w (.uploading s.idx),
               claims := s.claims ++ [(w, s.idx)],
               files := s.files.set s.idx .inflight,
               handles := mapSet s.handles s.idx } := by
  simp only [applyEv, hw]
  rw [if_neg hge, if_neg hc]

/-- `finish` for an unknown worker is a no-op. -/
theorem applyEv_finish_none {s : BatchState} {w : Nat} {r : UploadFinal}
    (hw : s.workers.get? w = none) : applyEv s (Ev.finish w r) = s := by
  simp only [applyEv, hw]

/-- `finish` for a worker that is not uploading is a no-op. -/
theorem applyEv_finish_notup {s : BatchState} {w : Nat} {r : UploadFinal} {ws : WorkerSt}
    (hw : s.workers.get? w = some ws) (hns : ∀ j, ¬ ws = WorkerSt.uploading j) :
    applyEv s (Ev.finish w r) = s := by
  cases ws with
  | ready => simp only [applyEv, hw]
  | uploading i => exact absurd rfl (hns i)
  | done => simp only [applyEv, hw]
  | threw m => simp only [applyEv, hw]

/-- A resolved upload: mark the file, drop the handle, resume the
worker. -/
theorem applyEv_finish_ok {s : BatchState} {w i : Nat}
    (hw : s.workers.get? w = some (WorkerSt.uploading i)) :
    applyEv s (Ev.finish w .ok) =
      { s with files := s.files.set i .succeeded,
               handles := mapDelete s.handles i,
               workers := s.workers.set w .ready } := by
  simp only [applyEv, hw]

/-- A rejected upload: mark the file, keep the handle exactly when the
final attempt was a network error, record the thrown message. -/
theorem applyEv_finish_fail {s : BatchState} {w i : Nat} {msg : String} {leak : Bool}
    (hw : s.workers.get? w = some (WorkerSt.uploading i)) :
    applyEv s (Ev.finish w (.fail msg leak)) =
      { s with files := s.files.set i .failed,
               handles := if leak then s.handles else mapDelete s.handles i,
               workers := s.workers.set w (.threw (failMsg s.names i msg)),
               errors := s.errors ++ [failMsg s.names i msg] } := by
  simp only [applyEv, hw]

/-- `cancelUploads`: set the flag, abort every registered transfer,
clear the map. -/
theorem applyEv_cancel_eq (s : BatchState) :
    applyEv s Ev.cancel =
      { s with cancelled := true,
               files := markAborted s.handles 0 s.files,
               abortedHandles := s.abortedHandles ++ s.handles,
               handles := [] } := rfl

/-- Frame facts of a single event: the file names and the worker count
never change, the cursor never decreases, and aborted handles are never
forgotten. -/
theorem applyEv_frame (s : BatchState) (e : Ev) :
    (applyEv s e).names = s.names ∧
    (applyEv s e).workers.length = s.workers.length ∧
    s.idx ≤ (applyEv s e).idx ∧
    (∀ x ∈ s.abortedHandles, x ∈ (applyEv s e).abortedHandles) := by
  cases e with
  | claim w =>
    rcases hw : s.workers.get? w with _ | ws
    · rw [applyEv_claim_none hw]
      exact ⟨rfl, rfl, Nat.le_refl _, fun x hx => hx⟩
    · by_cases hr : ws = WorkerSt.ready
      · subst hr
        by_cases hge : s.names.length ≤ s.idx
        · rw [applyEv_claim_exhausted hw hge]
          exact ⟨rfl, List.length_set _ _ _, Nat.le_succ _, fun x hx => hx⟩
        · by_cases hc : s.cancelled = true
          · rw [applyEv_claim_cancelled hw hge hc]
            exact ⟨rfl, List.length_set _ _ _, Nat.le_succ _, fun x hx => hx⟩
          · rw [applyEv_claim_new hw hge hc]
            exact ⟨rfl, List.length_set _ _ _, Nat.le_succ _, fun x hx => hx⟩
      · rw [applyEv_claim_notready hw hr]
        exact ⟨rfl, rfl, Nat.le_refl _, fun x hx => hx⟩
  | finish w r =>
    rcases hw : s.workers.get? w with _ | ws
    · rw [applyEv_finish_none hw]
      exact ⟨rfl, rfl, Nat.le_refl _, fun x hx => hx⟩
    · rcases ws with _ | i | _ | m
      · rw [applyEv_finish_notup hw (fun j h => by cases h)]
        exact ⟨rfl, rfl, Nat.le_refl _, fun x hx => hx⟩
      · cases r with
        | ok =>
          rw [applyEv_finish_ok hw]
          exact ⟨rfl, List.length_set _ _ _, Nat.le_refl _, fun x hx => hx⟩
        | fail msg leak =>
          rw [applyEv_finish_fail hw]
          exact ⟨rfl, List.length_set _ _ _, Nat.le_refl _, fun x hx => hx⟩
      · rw [applyEv_finish_notup hw (fun j h => by cases h)]
        exact ⟨rfl, rfl, Nat.le_refl _, fun x hx => hx⟩
      · rw [applyEv_finish_notup hw (fun j h => by cases h)]
        exact ⟨rfl, rfl, Nat.le_refl _, fun x hx => hx⟩
  | cancel =>
    rw [applyEv_cancel_eq]
    exact ⟨rfl, rfl, Nat.le_refl _, fun x hx => List.mem_append.mpr (.inl hx)⟩

/-- Frame facts along a whole schedule. -/
theorem runEvents_frame (s : BatchState) (evs : List Ev) :
    (runEvents s evs).names = s.names ∧
    (runEvents s evs).workers.length = s.workers.length ∧
    s.idx ≤ (runEvents s evs).idx ∧
    (∀ x ∈ s.abortedHandles, x ∈ (runEvents s evs).abortedHandles) := by
  induction evs generalizing s with
  | nil => exact ⟨rfl, rfl, Nat.le_refl _, fun x hx => hx⟩
  | cons e es ih =>
    obtain ⟨h1, h2, h3, h4⟩ := applyEv_frame s e
    obtain ⟨g1, g2, g3, g4⟩ := ih (applyEv s e)
    exact ⟨g1.trans h1, g2.trans h2, Nat.le_trans h3 g3, fun x hx => g4 x (h4 x hx)⟩

/-- Once `cancelled` is set, it stays set and no further claim is
recorded. -/
theorem applyEv_cancelled_true {s : BatchState} (e : Ev) (h : s.cancelled = true) :
    (applyEv s e).cancelled = true ∧ (applyEv s e).claims = s.claims := by
  cases e with
  | claim w =>
    rcases hw : s.workers.get? w with _ | ws
    · rw [applyEv_claim_none hw]
      exact ⟨h, rfl⟩
    · by_cases hr : ws = WorkerSt.ready
      · subst hr
        by_cases hge : s.names.length ≤ s.idx
        · rw [applyEv_claim_exhausted hw hge]
          exact ⟨h, rfl⟩
        · rw [applyEv_claim_cancelled hw hge h]
          exact ⟨h, rfl⟩
      · rw [applyEv_claim_notready hw hr]
        exact ⟨h, rfl⟩
  | finish w r =>
    rcases hw : s.workers.get? w with _ | ws
    · rw [applyEv_finish_none hw]
      exact ⟨h, rfl⟩
    · rcases ws with _ | i | _ | m
      · rw [applyEv_finish_notup hw (fun j hh => by cases hh)]
        exact ⟨h, rfl⟩
      · cases r with
        | ok =>
          rw [applyEv_finish_ok hw]
          exact ⟨h, rfl⟩
        | fail msg leak =>
          rw [applyEv_finish_fail hw]
          exact ⟨h, rfl⟩
      · rw [applyEv_finish_notup hw (fun j hh => by cases hh)]
        exact ⟨h, rfl⟩
      · rw [applyEv_finish_notup hw (fun j hh => by cases hh)]
        exact ⟨h, rfl⟩
  | cancel =>
    rw [applyEv_cancel_eq]
    exact ⟨rfl, rfl⟩

/-- Along any schedule after cancellation: still cancelled, no new
claims. -/
theorem runEvents_cancelled_true {s : BatchState} (evs : List Ev) (h : s.cancelled = true) :
    (runEvents s evs).cancelled = true ∧ (runEvents s evs).claims = s.claims := by
  induction evs generalizing s with
  | nil => exact ⟨h, rfl⟩
  | cons e es ih =>
    obtain ⟨h1, h2⟩ := applyEv_cancelled_true e h
    obtain ⟨g1, g2⟩ := ih (s := applyEv s e) h1
    exact ⟨g1, g2.trans h2⟩

/-- Events other than `cancel` do not touch the cancellation flag. -/
theorem applyEv_cancelled_of_ne {s : BatchState} (e : Ev) (he : ¬ e = Ev.cancel) :
    (applyEv s e).cancelled = s.cancelled := by
  cases e with
  | claim w =>
    rcases hw : s.workers.get? w with _ | ws
    · rw [applyEv_claim_none hw]
    · by_cases hr : ws = WorkerSt.ready
      · subst hr
        by_cases hge : s.names.length ≤ s.idx
        · rw [applyEv_claim_exhausted hw hge]
        · by_cases hc : s.cancelled = true
          · rw [applyEv_claim_cancelled hw hge hc]
          · rw [applyEv_claim_new hw hge hc]
      · rw [applyEv_claim_notready hw hr]
  | finish w r =>
    rcases hw : s.workers.get? w with _ | ws
    · rw [applyEv_finish_none hw]
    · rcases ws with _ | i | _ | m
      · rw [applyEv_finish_notup hw (fun j hh => by cases hh)]
      · cases r with
        | ok => rw [applyEv_finish_ok hw]
        | fail msg leak => rw [applyEv_finish_fail hw]
      · rw [applyEv_finish_notup hw (fun j hh => by cases hh)]
      · rw [applyEv_finish_notup hw (fun j hh => by cases hh)]
  | cancel => exact absurd rfl he

/-- A schedule that never cancels leaves the cancellation flag alone. -/
theorem runEvents_no_cancel {s : BatchState} (evs : List Ev) (hnc : Ev.cancel ∉ evs) :
    (runEvents s evs).cancelled = s.cancelled := by
  induction evs generalizing s with
  | nil => rfl
  | cons e es ih =>
    have he : ¬ e = Ev.cancel := fun hh => hnc (by rw [hh]; exact List.mem_cons_self _ _)
    have h2 : Ev.cancel ∉ es := fun hh => hnc (List.mem_cons_of_mem _ hh)
    have h3 := ih (s := applyEv s e) h2
    rw [runEvents, h3, applyEv_cancelled_of_ne e he]

/-- A file that has succeeded stays succeeded under every event:
claiming only touches an unclaimed (hence pending) slot, finishing only
touches the in-flight or aborted slot of the finishing worker, and
cancellation only aborts in-flight slots. -/
theorem succeeded_preserved {s : BatchState} (inv : BatchInv s) (e : Ev) (i : Nat)
    (h : s.files.get? i = some FileSt.succeeded) :
    (applyEv s e).files.get? i = some FileSt.succeeded := by
  cases e with
  | claim w =>
    rcases hw : s.workers.get? w with _ | ws
    · rw [applyEv_claim_none hw]
      exact h
    · by_cases hr : ws = WorkerSt.ready
      · subst hr
        by_cases hge : s.names.length ≤ s.idx
        · rw [applyEv_claim_exhausted hw hge]
          exact h
        · by_cases hc : s.cancelled = true
          · rw [applyEv_claim_cancelled hw hge hc]
            exact h
          · rw [applyEv_claim_new hw hge hc]
            have hi : ¬ i = s.idx := by
              intro he
              rw [he] at h
              rcases inv.touched_claimed s.idx _ h with h1 | h1
              · cases h1
              · obtain ⟨k, hk1, _, hk3⟩ := inv.claims_range
                rw [hk3] at h1
                have := List.mem_range.mp h1
                omega
            show (s.files.set s.idx FileSt.inflight).get? i = some FileSt.succeeded
            rw [List.get?_set_ne _ _ (fun he => hi he.symm)]
            exact h
      · rw [applyEv_claim_notready hw hr]
        exact h
  | finish w r =>
    rcases hw : s.workers.get? w with _ | ws
    · rw [applyEv_finish_none hw]
      exact h
    · rcases ws with _ | j | _ | m
      · rw [applyEv_finish_notup hw (fun j hh => by cases hh)]
        exact h
      · have hji : ¬ i = j := by
          intro he
          subst he
          rcases inv.uploading_status w i hw with h1 | h1 <;> rw [h] at h1 <;> simp at h1
        cases r with
        | ok =>
          rw [applyEv_finish_ok hw]
          show (s.files.set j FileSt.succeeded).get? i = some FileSt.succeeded
          rw [List.get?_set_ne _ _ (fun he => hji he.symm)]
          exact h
        | fail msg leak =>
          rw [applyEv_finish_fail hw]
          show (s.files.set j FileSt.failed).get? i = some FileSt.succeeded
          rw [List.get?_set_ne _ _ (fun he => hji he.symm)]
          exact h
      · rw [applyEv_finish_notup hw (fun j hh => by cases hh)]
        exact h
      · rw [applyEv_finish_notup hw (fun j hh => by cases hh)]
        exact h
  | cancel =>
    rw [applyEv_cancel_eq]
    show (markAborted s.handles 0 s.files).get? i = some FileSt.succeeded
    rw [markAborted_get? s.handles s.files 0 i, h]
    simp

/-- A file that has succeeded stays succeeded along any schedule. -/
theorem succeeded_preserved_run {s : BatchState} (inv : BatchInv s) (evs : List Ev) (i : Nat)
    (h : s.files.get? i = some FileSt.succeeded) :
    (runEvents s evs).files.get? i = some FileSt.succeeded := by
  induction evs generalizing s with
  | nil => exact h
  | cons e es ih => exact ih (inv_step inv e) (succeeded_preserved inv e i h)

/-- C3: for equal-length inputs (the batch model is only entered after
the length precondition) and at least one worker, `uploadFiles` claims
every file index at most once under any scheduling — the claimed indices
are pairwise distinct and below the length, and no index is claimed by
two workers — and on successful completion (all workers returned, no
cancellation) every index in `[0, len)` was claimed exactly once and
every file reached the `succeeded` terminal state. -/
theorem uploadFiles_claims_exactly_once (names : List String) (concurrency : Nat) (evs : List Ev)
    (hconc : 1 ≤ concurrency) :
    ((runEvents (initBatch names concurrency) evs).claims.map Prod.snd).Nodup ∧
    (∀ p ∈ (runEvents (initBatch names concurrency) evs).claims, p.2 < names.length) ∧
    (∀ p q, p ∈ (runEvents (initBatch names concurrency) evs).claims →
      q ∈ (runEvents (initBatch names concurrency) evs).claims → p.2 = q.2 → p = q) ∧
    (Ev.cancel ∉ evs →
      (∀ ws ∈ (runEvents (initBatch names concurrency) evs).workers, ws = WorkerSt.done) →
      (∀ i, i < names.length →
        i ∈ (runEvents (initBatch names concurrency) evs).claims.map Prod.snd) ∧
      (∀ st ∈ (runEvents (initBatch names concurrency) evs).files, st = FileSt.succeeded)) := by
  have inv := inv_run (initBatch_inv names concurrency) evs
  obtain ⟨hnames, hwlen, hidx, _⟩ := runEvents_frame (initBatch names concurrency) evs
  have hnames' : (runEvents (initBatch names concurrency) evs).names = names := hnames
  obtain ⟨k, hk1, hk2, hk3⟩ := inv.claims_range
  have hnodup : ((runEvents (initBatch names concurrency) evs).claims.map Prod.snd).Nodup := by
    rw [hk3]
    exact List.nodup_range k
  refine ⟨hnodup, ?_, ?_, ?_⟩
  · intro p hp
    have hmem : p.2 ∈ List.range k := by
      rw [← hk3]
      exact List.mem_map.mpr ⟨p, hp, rfl⟩
    have h2 := List.mem_range.mp hmem
    rw [hnames'] at hk2
    omega
  · intro p q hp hq hpq
    exact snd_nodup_eq hnodup hp hq hpq
  · intro hnc hdone
    have hc : (runEvents (initBatch names concurrency) evs).cancelled = false := by
      rw [runEvents_no_cancel evs hnc]
      rfl
    have hfull := inv.claims_full hc
    rw [hnames'] at hfull
    by_cases hn : names.length = 0
    · constructor
      · intro i hi
        omega
      · intro st hst
        have hlen : (runEvents (initBatch names concurrency) evs).files.length = 0 := by
          rw [inv.files_len, hnames', hn]
        rw [List.length_eq_zero] at hlen
        rw [hlen] at hst
        cases hst
    · have hminpos : 0 < min concurrency names.length := by omega
      have hw0 : 0 < (runEvents (initBatch names concurrency) evs).workers.length := by
        rw [hwlen]
        simpa [initBatch] using hminpos
      obtain ⟨ws0, hws0⟩ :
          ∃ ws0, (runEvents (initBatch names concurrency) evs).workers.get? 0 = some ws0 := by
        rcases hh : (runEvents (initBatch names concurrency) evs).workers.get? 0 with _ | ws0
        · rw [List.get?_eq_none] at hh
          omega
        · exact ⟨ws0, rfl⟩
      have hd := hdone ws0 (List.get?_mem hws0)
      have hws0d : (runEvents (initBatch names concurrency) evs).workers.get? 0
          = some WorkerSt.done := by
        rw [hws0, hd]
      rcases inv.done_idx 0 hws0d with h1 | h1
      · rw [hc] at h1
        cases h1
      · rw [hnames'] at h1
        have hmin : min (runEvents (initBatch names concurrency) evs).idx names.length
            = names.length := Nat.min_eq_right (by omega)
        rw [hmin] at hfull
        constructor
        · intro i hi
          rw [hfull]
          exact List.mem_range.mpr hi
        · intro st hst
          obtain ⟨j, hj⟩ := List.mem_iff_get?.mp hst
          have hjlen : j < (runEvents (initBatch names concurrency) evs).files.length := by
            rcases List.get?_eq_some.mp hj with ⟨hh, _⟩
            exact hh
          have hjn : j < names.length := by
            rw [inv.files_len, hnames'] at hjlen
            exact hjlen
          cases st with
          | pending =>
            exact absurd hj
              (inv.claimed_not_pending j (by rw [hfull]; exact List.mem_range.mpr hjn))
          | inflight =>
            obtain ⟨w0, hw0u⟩ := inv.inflight_worker j hj
            have hx := hdone _ (List.get?_mem hw0u)
            cases hx
          | succeeded => rfl
          | failed =>
            obtain ⟨w0, m0, hw0u⟩ := inv.failed_thrower j hj
            have hx := hdone _ (List.get?_mem hw0u)
            cases hx
          | aborted =>
            have hx := inv.aborted_cancelled j hj
            rw [hc] at hx
            cases hx

/-- Witness for C3: a 2-file batch with 2 workers completes with both
indices claimed (index 1 shown) and both files succeeded (file 0
shown). -/
theorem uploadFiles_claims_exactly_once_witness :
    (1 : Nat) ∈ ((runEvents (initBatch ["a.pdf", "b.pdf"] 2)
      [Ev.claim 0, Ev.claim 1, Ev.finish 0 .ok, Ev.finish 1 .ok,
       Ev.claim 0, Ev.claim 1]).claims.map Prod.snd) ∧
    (runEvents (initBatch ["a.pdf", "b.pdf"] 2)
      [Ev.claim 0, Ev.claim 1, Ev.finish 0 .ok, Ev.finish 1 .ok,
       Ev.claim 0, Ev.claim 1]).files.get? 0 = some FileSt.succeeded := by
  have h := (uploadFiles_claims_exactly_once ["a.pdf", "b.pdf"] 2
    [Ev.claim 0, Ev.claim 1, Ev.finish 0 .ok, Ev.finish 1 .ok, Ev.claim 0, Ev.claim 1]
    (by decide)).2.2.2 (by decide) (by decide)
  refine ⟨h.1 1 (by decide), ?_⟩
  have h2 := h.2 ((runEvents (initBatch ["a.pdf", "b.pdf"] 2)
    [Ev.claim 0, Ev.claim 1, Ev.finish 0 .ok, Ev.finish 1 .ok,
     Ev.claim 0, Ev.claim 1]).files.getD 0 FileSt.pending) (by decide)
  rw [show (runEvents (initBatch ["a.pdf", "b.pdf"] 2)
    [Ev.claim 0, Ev.claim 1, Ev.finish 0 .ok, Ev.finish 1 .ok,
     Ev.claim 0, Ev.claim 1]).files.get? 0
      = some ((runEvents (initBatch ["a.pdf", "b.pdf"] 2)
    [Ev.claim 0, Ev.claim 1, Ev.finish 0 .ok, Ev.finish 1 .ok,
     Ev.claim 0, Ev.claim 1]).files.getD 0 FileSt.pending) from by decide, h2]

/-- C7: after `cancelUploads()` fires mid-batch, no new file index is
ever claimed under any continuation of the schedule, the handle map is
cleared with every handle registered at the time of the call recorded as
aborted, and files that had already succeeded remain succeeded. -/
theorem cancelUploads_spec (names : List String) (concurrency : Nat) (evs1 evs2 : List Ev) :
    (runEvents (applyEv (runEvents (initBatch names concurrency) evs1) Ev.cancel) evs2).claims =
      (runEvents (initBatch names concurrency) evs1).claims ∧
    (applyEv (runEvents (initBatch names concurrency) evs1) Ev.cancel).handles = [] ∧
    (∀ i ∈ (runEvents (initBatch names concurrency) evs1).handles,
      i ∈ (runEvents (applyEv (runEvents (initBatch names concurrency) evs1) Ev.cancel)
        evs2).abortedHandles) ∧
    (∀ i, (runEvents (initBatch names concurrency) evs1).files.get? i = some FileSt.succeeded →
      (runEvents (applyEv (runEvents (initBatch names concurrency) evs1) Ev.cancel)
        evs2).files.get? i = some FileSt.succeeded) := by
  have inv1 := inv_run (initBatch_inv names concurrency) evs1
  have hcanc :
      (applyEv (runEvents (initBatch names concurrency) evs1) Ev.cancel).cancelled = true := by
    rw [applyEv_cancel_eq]
  obtain ⟨hc2, hclaims2⟩ := runEvents_cancelled_true evs2 hcanc
  refine ⟨?_, ?_, ?_, ?_⟩
  · rw [hclaims2, applyEv_cancel_eq]
  · rw [applyEv_cancel_eq]
  · intro i hi
    have h1 : i ∈ (applyEv (runEvents (initBatch names concurrency) evs1)
        Ev.cancel).abortedHandles := by
      rw [applyEv_cancel_eq]
      exact List.mem_append.mpr (.inr hi)
    exact (runEvents_frame _ evs2).2.2.2 i h1
  · intro i hi
    have h1 := succeeded_preserved inv1 Ev.cancel i hi
    exact succeeded_preserved_run (inv_step inv1 Ev.cancel) evs2 i h1

/-- Witness for C7: file 0 succeeds, file 1 is in flight when
`cancelUploads` fires; afterwards file 0 is still succeeded and handle 1
was aborted. -/
theorem cancelUploads_spec_witness :
    (runEvents (applyEv (runEvents (initBatch ["a.pdf", "b.pdf"] 2)
        [Ev.claim 0, Ev.finish 0 .ok, Ev.claim 1]) Ev.cancel)
      [Ev.claim 0]).files.get? 0 = some FileSt.succeeded ∧
    (1 : Nat) ∈ (runEvents (applyEv (runEvents (initBatch ["a.pdf", "b.pdf"] 2)
        [Ev.claim 0, Ev.finish 0 .ok, Ev.claim 1]) Ev.cancel)
      [Ev.claim 0]).abortedHandles :=
  ⟨(cancelUploads_spec ["a.pdf", "b.pdf"] 2 [Ev.claim 0, Ev.finish 0 .ok, Ev.claim 1]
      [Ev.claim 0]).2.2.2 0 (by decide),
   (cancelUploads_spec ["a.pdf", "b.pdf"] 2 [Ev.claim 0, Ev.finish 0 .ok, Ev.claim 1]
      [Ev.claim 0]).2.2.1 1 (by decide)⟩

/-- C9: when the first file-level failure of a batch occurs (no earlier
rejection was recorded), the worker throws — and the batch settles
with — the message `Failed to upload <name>: <cause>`, naming the
failing file and the underlying cause; the failure alone aborts nothing:
the cancellation flag and the abort record are untouched, every other
worker's state is untouched, and every other index's registered handle
stays registered. -/
theorem uploadFiles_first_failure (s : BatchState) (w i : Nat) (msg : String) (leak : Bool)
    (hw : s.workers.get? w = some (WorkerSt.uploading i)) (hfirst : s.errors = []) :
    (applyEv s (Ev.finish w (.fail msg leak))).workers.get? w
        = some (.threw (failMsg s.names i msg)) ∧
    settleResult (applyEv s (Ev.finish w (.fail msg leak))) = .error (failMsg s.names i msg) ∧
    (applyEv s (Ev.finish w (.fail msg leak))).cancelled = s.cancelled ∧
    (applyEv s (Ev.finish w (.fail msg leak))).abortedHandles = s.abortedHandles ∧
    (∀ w2, ¬ w2 = w →
      (applyEv s (Ev.finish w (.fail msg leak))).workers.get? w2 = s.workers.get? w2) ∧
    (∀ j ∈ s.handles, ¬ j = i → j ∈ (applyEv s (Ev.finish w (.fail msg leak))).handles) := by
  have hwlen : w < s.workers.length := by
    rcases List.get?_eq_some.mp hw with ⟨h, _⟩
    exact h
  rw [applyEv_finish_fail hw]
  refine ⟨?_, ?_, rfl, rfl, ?_, ?_⟩
  · show (s.workers.set w (.threw (failMsg s.names i msg))).get? w = _
    rw [List.get?_set_eq_of_lt _ hwlen]
  · show settleResult _ = _
    simp [settleResult, hfirst]
  · intro w2 hne
    show (s.workers.set w (.threw (failMsg s.names i msg))).get? w2 = s.workers.get? w2
    rw [List.get?_set_ne _ _ (fun he => hne he.symm)]
  · intro j hj hji
    show j ∈ (if leak then s.handles else mapDelete s.handles i)
    split
    · exact hj
    · exact mem_mapDelete.mpr ⟨hj, hji⟩

/-- Witness for C9: with file 0 of `a.pdf, b.pdf` in flight and no prior
rejection, a final rejection with a 500 status settles the batch with an
error naming `a.pdf` and the cause. -/
theorem uploadFiles_first_failure_witness :
    settleResult (applyEv (runEvents (initBatch ["a.pdf", "b.pdf"] 2) [Ev.claim 0])
        (Ev.finish 0 (.fail "Upload failed with status 500" false)))
      = .error "Failed to upload a.pdf: Upload failed with status 500" := by
  have h := (uploadFiles_first_failure
    (runEvents (initBatch ["a.pdf", "b.pdf"] 2) [Ev.claim 0]) 0 0
    "Upload failed with status 500" false (by decide) (by decide)).2.1
  rw [h]
  rfl
